import Mathlib

/-!
Verification of LEMON's indexed binary min-heap (`lemon/bin_heap.h`).

The C++ class `BinHeap<PR, IM, CMP>` stores `std::pair<Item, Prio>` entries in a
`std::vector` together with an external item-to-int cross reference map `_iim`.
We embed it shallowly: items are natural numbers, the backing vector is a
`List (Nat × P)`, the cross reference map is a total function `Nat → Int`, and
the injected comparison `CMP` (default `std::less<PR>`) is the strict order of a
`LinearOrder`.  Every private and public member function of the class is
translated one-to-one below.
-/

set_option autoImplicit false

namespace LemonBinHeap

/-- Sentinel stored in the cross reference map for an item that has never been
in the heap (`BinHeap::PRE_HEAP = -1`). -/
def PRE_HEAP : Int := -1

/-- Sentinel stored in the cross reference map for an item that was removed
from the heap (`BinHeap::POST_HEAP = -2`). -/
def POST_HEAP : Int := -2

/-- Value reported by `state` for an item currently in the heap
(`BinHeap::IN_HEAP = 0`). -/
def IN_HEAP : Int := 0

/-- The heap state: `data` is the backing vector `_data` of (item, priority)
pairs and `iim` is the item-int cross reference map `_iim`. -/
@[ext] structure BinHeap (P : Type) where
  data : List (Nat × P)
  iim : Nat → Int

variable {P : Type} [LinearOrder P] [Inhabited P]

namespace BinHeap

/-- Reading `_data[i]`; out-of-range reads (undefined behaviour in C++) return
the default pair, mirroring `std::pair`'s value initialisation. -/
def nth (h : BinHeap P) (i : Nat) : Nat × P := h.data.getD i default

/-- `static int parent(int i) { return (i-1)/2; }` (on in-range arguments). -/
def parent (i : Nat) : Nat := (i - 1) / 2

/-- `static int second_child(int i) { return 2*i+2; }` -/
def second_child (i : Nat) : Nat := 2 * i + 2

/-- `void move(const Pair &p, int i)`: writes `p` into slot `i` of `_data` and
records the new position of `p.first` in the cross reference map. -/
def move (h : BinHeap P) (p : Nat × P) (i : Nat) : BinHeap P :=
  { data := h.data.set i p, iim := fun x => if x = p.1 then (i : Int) else h.iim x }

/-- `int bubble_up(int hole, Pair p)`: while the hole is not the root and `p`
compares less than the entry at the hole's parent, the parent entry is moved
down into the hole; finally `p` is written at the hole.  Returns the final
state together with the returned hole index. -/
def bubble_up (h : BinHeap P) (hole : Nat) (p : Nat × P) : BinHeap P × Nat :=
  if hc : 0 < hole ∧ p.2 < (nth h (parent hole)).2 then
    bubble_up (move h (nth h (parent hole)) hole) (parent hole) p
  else
    (move h p hole, hole)
termination_by hole
decreasing_by
  have := Nat.div_le_self (hole - 1) 2
  simp only [parent]
  omega

/-- `int bubble_down(int hole, Pair p, int length)`: the faithful transcription
of the loop, including the child-selection test
`if (less(_data[child-1], _data[child])) --child;` and the residual single
left-child check after the loop. -/
def bubble_down (h : BinHeap P) (hole : Nat) (p : Nat × P) (length : Nat) :
    BinHeap P × Nat :=
  if hc : second_child hole < length then
    let child := if (nth h (second_child hole - 1)).2 < (nth h (second_child hole)).2
      then second_child hole - 1 else second_child hole
    if (nth h child).2 < p.2 then
      bubble_down (move h (nth h child) hole) child p length
    else
      (move h p hole, hole)
  else
    let child := second_child hole - 1
    if child < length ∧ (nth h child).2 < p.2 then
      (move (move h (nth h child) hole) p child, child)
    else
      (move h p hole, hole)
termination_by length - hole
decreasing_by
  simp only [second_child] at *
  split <;> omega

/-- `int size() const` (as a natural number). -/
def size (h : BinHeap P) : Nat := h.data.length

/-- `bool empty() const`. -/
def empty (h : BinHeap P) : Bool := h.data.isEmpty

/-- `void clear()`: `_data.clear();` — the cross reference map is untouched. -/
def clear (h : BinHeap P) : BinHeap P := { h with data := [] }

/-- `void push(const Pair &p)`: grows `_data` by one default slot
(`_data.resize(n+1)`) and bubbles `p` up from the new slot. -/
def push (h : BinHeap P) (p : Nat × P) : BinHeap P :=
  (bubble_up { h with data := h.data ++ [default] } h.data.length p).1

/-- `Item top() const`: the item of `_data[0]`. -/
def top (h : BinHeap P) : Nat := (nth h 0).1

/-- `Prio prio() const`: the priority of `_data[0]`. -/
def prio (h : BinHeap P) : P := (nth h 0).2

/-- `void pop()`: marks the root item `POST_HEAP`, and when more than one
entry remains bubbles the last entry down from the root with the reduced
length, finally shrinking the vector. -/
def pop (h : BinHeap P) : BinHeap P :=
  let n := h.data.length - 1
  let h1 : BinHeap P :=
    { h with iim := fun x => if x = (nth h 0).1 then POST_HEAP else h.iim x }
  let h2 := if 0 < n then (bubble_down h1 0 (nth h1 n) n).1 else h1
  { h2 with data := h2.data.dropLast }

/-- `void erase(const Item &i)`: marks the item at its slot `POST_HEAP`; when
the freed slot is not the last one, moves the last entry there by first
attempting `bubble_up`, and only when that returned the unchanged hole also
running `bubble_down`; finally shrinks the vector. -/
def erase (h : BinHeap P) (i : Nat) : BinHeap P :=
  let hi := (h.iim i).toNat
  let n := h.data.length - 1
  let h1 : BinHeap P :=
    { h with iim := fun x => if x = (nth h hi).1 then POST_HEAP else h.iim x }
  let h2 :=
    if hi < n then
      let r := bubble_up h1 hi (nth h1 n)
      if r.2 = hi then (bubble_down r.1 hi (nth r.1 n) n).1 else r.1
    else h1
  { h2 with data := h2.data.dropLast }

/-- `Prio operator[](const Item &i) const`: O(1) priority lookup through the
cross reference map. -/
def prioOf (h : BinHeap P) (i : Nat) : P := (nth h (h.iim i).toNat).2

/-- `void set(const Item &i, const Prio &p)`: push when the item's index is
negative, otherwise bubble up when the new priority compares less than the
stored one and bubble down otherwise. -/
def set (h : BinHeap P) (i : Nat) (p : P) : BinHeap P :=
  let idx := h.iim i
  if idx < 0 then
    push h (i, p)
  else if p < (nth h idx.toNat).2 then
    (bubble_up h idx.toNat (i, p)).1
  else
    (bubble_down h idx.toNat (i, p) h.data.length).1

/-- `void decrease(const Item &i, const Prio &p)`: unconditionally bubbles up
from the item's current slot. -/
def decrease (h : BinHeap P) (i : Nat) (p : P) : BinHeap P :=
  (bubble_up h (h.iim i).toNat (i, p)).1

/-- `void increase(const Item &i, const Prio &p)`: unconditionally bubbles
down from the item's current slot with the full length. -/
def increase (h : BinHeap P) (i : Nat) (p : P) : BinHeap P :=
  (bubble_down h (h.iim i).toNat (i, p) h.data.length).1

/-- `State state(const Item &i) const`: any non-negative index is normalised
to `IN_HEAP` (0); the two sentinels are returned unchanged. -/
def state (h : BinHeap P) (i : Nat) : Int :=
  if 0 ≤ h.iim i then 0 else h.iim i

/-- `void state(const Item& i, State st)`: for `st` equal to `POST_HEAP` or
`PRE_HEAP`, erases the item when it is currently in the heap and then
overwrites its index with `st`; for `IN_HEAP` the switch does nothing. -/
def stateSet (h : BinHeap P) (i : Nat) (st : Int) : BinHeap P :=
  if st = POST_HEAP ∨ st = PRE_HEAP then
    let h1 := if state h i = IN_HEAP then erase h i else h
    { h1 with iim := fun x => if x = i then st else h1.iim x }
  else
    h

/-- `void replace(const Item& i, const Item& j)`: swaps the two items' cross
reference values and overwrites the item field of the entry in place. -/
def replace (h : BinHeap P) (i j : Nat) : BinHeap P :=
  let idx := h.iim i
  let iim1 : Nat → Int := fun x => if x = i then h.iim j else h.iim x
  { data := h.data.set idx.toNat (j, (nth h idx.toNat).2),
    iim := fun x => if x = j then idx else iim1 x }

end BinHeap

/-! ### Elementary facts about list indexing used throughout -/

theorem getD_set_self {α : Type} (l : List α) (i : Nat) (a d : α)
    (hi : i < l.length) : (l.set i a).getD i d = a := by
  rw [List.getD_eq_getElem?_getD, List.getElem?_set_self hi]
  rfl

theorem getD_set_ne {α : Type} (l : List α) (i j : Nat) (a d : α)
    (hij : i ≠ j) : (l.set i a).getD j d = l.getD j d := by
  rw [List.getD_eq_getElem?_getD, List.getElem?_set_ne hij,
    ← List.getD_eq_getElem?_getD]

theorem getD_append_left {α : Type} (l l' : List α) (i : Nat) (d : α)
    (hi : i < l.length) : (l ++ l').getD i d = l.getD i d := by
  rw [List.getD_eq_getElem?_getD, List.getElem?_append_left hi,
    ← List.getD_eq_getElem?_getD]

theorem getD_append_length {α : Type} (l : List α) (a d : α) :
    (l ++ [a]).getD l.length d = a := by
  rw [List.getD_eq_getElem?_getD, List.getElem?_concat_length]
  rfl

theorem getD_dropLast {α : Type} (l : List α) (i : Nat) (d : α)
    (hi : i < l.length - 1) : l.dropLast.getD i d = l.getD i d := by
  rw [List.dropLast_eq_take, List.getD_eq_getElem?_getD, List.getElem?_take,
    if_pos hi, ← List.getD_eq_getElem?_getD]

theorem set_append_length {α : Type} (l : List α) (a d : α) :
    (l ++ [d]).set l.length a = l ++ [a] := by
  rw [List.set_append, if_neg (lt_irrefl _), Nat.sub_self]
  rfl

theorem cons_set_perm {α : Type} (l : List α) (i : Nat) (a d : α)
    (hi : i < l.length) : List.Perm (l.getD i d :: l.set i a) (a :: l) := by
  induction l generalizing i with
  | nil => simp at hi
  | cons x t ih =>
    cases i with
    | zero => exact List.Perm.swap a x t
    | succ i =>
      have hit : i < t.length := by simpa using hi
      have h1 : List.Perm (t.getD i d :: x :: t.set i a)
          (x :: t.getD i d :: t.set i a) := List.Perm.swap x _ _
      have h2 : List.Perm (x :: t.getD i d :: t.set i a) (x :: a :: t) :=
        (ih i hit).cons x
      exact (h1.trans h2).trans (List.Perm.swap a x t)

theorem set_eq_of_getD {α : Type} (l : List α) (i : Nat) (a d : α)
    (hi : i < l.length) (he : l.getD i d = a) : l.set i a = l := by
  induction l generalizing i with
  | nil => simp at hi
  | cons x t ih =>
    cases i with
    | zero => simpa using he.symm
    | succ i =>
      have hit : i < t.length := by simpa using hi
      simpa using ih i hit he

theorem perm_getD_last_dropLast {α : Type} (l : List α) (d : α)
    (hl : l ≠ []) : List.Perm l (l.getD (l.length - 1) d :: l.dropLast) := by
  have hlast : l.getD (l.length - 1) d = l.getLast hl := by
    rw [List.getLast_eq_getElem, List.getD_eq_getElem?_getD,
      List.getElem?_eq_getElem]
    rfl
  have h1 : List.Perm (l.dropLast ++ [l.getLast hl]) (l.getLast hl :: l.dropLast) :=
    List.perm_append_singleton _ _
  rw [List.dropLast_append_getLast hl] at h1
  rw [hlast]
  exact h1

theorem set_getD_set_perm {α : Type} (l : List α) (i j : Nat) (a d : α)
    (hij : i ≠ j) (hi : i < l.length) (hj : j < l.length) :
    List.Perm ((l.set i (l.getD j d)).set j a) (l.set i a) := by
  have hjX : j < (l.set i (l.getD j d)).length := by
    rw [List.length_set]; exact hj
  have hXj : (l.set i (l.getD j d)).getD j d = l.getD j d :=
    getD_set_ne l i j _ d hij
  have h1 : List.Perm (l.getD j d :: (l.set i (l.getD j d)).set j a)
      (a :: l.set i (l.getD j d)) := by
    have := cons_set_perm (l.set i (l.getD j d)) j a d hjX
    rw [hXj] at this
    exact this
  have h2 : List.Perm (l.getD i d :: l.set i (l.getD j d)) (l.getD j d :: l) :=
    cons_set_perm l i (l.getD j d) d hi
  have h3 : List.Perm (l.getD i d :: l.set i a) (a :: l) :=
    cons_set_perm l i a d hi
  have chain : List.Perm (l.getD i d :: l.getD j d :: (l.set i (l.getD j d)).set j a)
      (l.getD i d :: l.getD j d :: l.set i a) := by
    have s1 := h1.cons (l.getD i d)
    have s2 : List.Perm (l.getD i d :: a :: l.set i (l.getD j d))
        (a :: l.getD i d :: l.set i (l.getD j d)) := List.Perm.swap _ _ _
    have s3 := h2.cons a
    have s4 : List.Perm (a :: l.getD j d :: l) (l.getD j d :: a :: l) :=
      List.Perm.swap _ _ _
    have s5 := h3.symm.cons (l.getD j d)
    have s6 : List.Perm (l.getD j d :: l.getD i d :: l.set i a)
        (l.getD i d :: l.getD j d :: l.set i a) := List.Perm.swap _ _ _
    exact ((((s1.trans s2).trans s3).trans s4).trans s5).trans s6
  exact (chain.cons_inv).cons_inv

namespace BinHeap

/-! ### Elementary facts about `nth` and `move` -/

theorem nth_mem (h : BinHeap P) (i : Nat) (hi : i < h.data.length) :
    nth h i ∈ h.data := by
  have : h.data.getD i default = h.data[i] := by
    rw [List.getD_eq_getElem?_getD, List.getElem?_eq_getElem hi]
    rfl
  rw [nth, this]
  exact List.getElem_mem hi

theorem mem_nth (h : BinHeap P) (a : Nat × P) (ha : a ∈ h.data) :
    ∃ i, i < h.data.length ∧ nth h i = a := by
  rcases List.mem_iff_getElem.mp ha with ⟨i, hi, he⟩
  refine ⟨i, hi, ?_⟩
  rw [nth, List.getD_eq_getElem?_getD, List.getElem?_eq_getElem hi, he]
  rfl

@[simp] theorem length_move (h : BinHeap P) (p : Nat × P) (i : Nat) :
    (move h p i).data.length = h.data.length := List.length_set _ _ _

theorem nth_move_self (h : BinHeap P) (p : Nat × P) (i : Nat)
    (hi : i < h.data.length) : nth (move h p i) i = p :=
  getD_set_self _ _ _ _ hi

theorem nth_move_ne (h : BinHeap P) (p : Nat × P) (i j : Nat) (hij : i ≠ j) :
    nth (move h p i) j = nth h j :=
  getD_set_ne _ _ _ _ _ hij

theorem iim_move_self (h : BinHeap P) (p : Nat × P) (i : Nat) :
    (move h p i).iim p.1 = (i : Int) := by
  simp [move]

theorem iim_move_ne (h : BinHeap P) (p : Nat × P) (i : Nat) (x : Nat)
    (hx : x ≠ p.1) : (move h p i).iim x = h.iim x := by
  simp [move, hx]

theorem data_move (h : BinHeap P) (p : Nat × P) (i : Nat) :
    (move h p i).data = h.data.set i p := rfl

theorem parent_lt {i : Nat} (hi : 0 < i) : parent i < i := by
  have := Nat.div_le_self (i - 1) 2
  simp only [parent]
  omega

/-! ### The joint bookkeeping lemma for `bubble_up`

Starting from a state whose cross references are correct on every considered
slot except the hole, and in which the moving pair's item occupies no slot
other than possibly the hole, `bubble_up` produces a state with correct cross
references on all considered slots, places the pair at the returned hole, and
leaves both the slots beyond the considered range and the cross references of
uninvolved items untouched. -/

theorem bubble_up_good (m : Nat) :
    ∀ (h : BinHeap P) (hole : Nat) (p : Nat × P),
    m ≤ h.data.length → hole < m →
    (∀ i, i < m → i ≠ hole → h.iim (nth h i).1 = (i : Int)) →
    (∀ x, 0 ≤ h.iim x → x ≠ p.1 →
      ∃ i, i < m ∧ i ≠ hole ∧ (nth h i).1 = x) →
    (∀ i, i < m → i ≠ hole → (nth h i).1 ≠ p.1) →
    (bubble_up h hole p).1.data.length = h.data.length ∧
    (bubble_up h hole p).2 ≤ hole ∧
    (∀ j, m ≤ j → nth (bubble_up h hole p).1 j = nth h j) ∧
    nth (bubble_up h hole p).1 (bubble_up h hole p).2 = p ∧
    (bubble_up h hole p).1.iim p.1 = ((bubble_up h hole p).2 : Int) ∧
    (∀ i, i < m → (bubble_up h hole p).1.iim (nth (bubble_up h hole p).1 i).1 = (i : Int)) ∧
    (∀ x, 0 ≤ (bubble_up h hole p).1.iim x →
      ∃ i, i < m ∧ (nth (bubble_up h hole p).1 i).1 = x) ∧
    (∀ x, x ≠ p.1 → (∀ i, i < m → i ≠ hole → (nth h i).1 ≠ x) →
      (bubble_up h hole p).1.iim x = h.iim x) := by
  intro h hole p
  induction h, hole, p using bubble_up.induct with
  | case1 h hole p hc ih =>
    intro hm hhole A B C
    obtain ⟨hpos, hlt⟩ := hc
    set q := nth h (parent hole) with hq
    set h1 := move h q hole with hh1
    have hph : parent hole < hole := parent_lt hpos
    have hphm : parent hole < m := lt_trans hph hhole
    have hphh : parent hole ≠ hole := Nat.ne_of_lt hph
    have hholelen : hole < h.data.length := lt_of_lt_of_le hhole hm
    have hlen1 : h1.data.length = h.data.length := length_move h q hole
    -- distinct items on distinct non-hole slots
    have hdist : ∀ i j, i < m → j < m → i ≠ hole → j ≠ hole → i ≠ j →
        (nth h i).1 ≠ (nth h j).1 := by
      intro i j him hjm hih hjh hij he
      have h1 := A i him hih
      have h2 := A j hjm hjh
      rw [he, h2] at h1
      exact hij (by exact_mod_cast h1.symm)
    -- the hypotheses for the recursive call
    have hm1 : m ≤ h1.data.length := by rw [hlen1]; exact hm
    have A1 : ∀ i, i < m → i ≠ parent hole → h1.iim (nth h1 i).1 = (i : Int) := by
      intro i him hip
      by_cases hih : i = hole
      · rw [hih, nth_move_self h q hole hholelen]
        exact iim_move_self h q hole
      · rw [nth_move_ne h q hole i (fun a => hih a.symm)]
        have hne : (nth h i).1 ≠ q.1 := hdist i (parent hole) him hphm hih hphh hip
        rw [iim_move_ne h q hole _ hne]
        exact A i him hih
    have B1 : ∀ x, 0 ≤ h1.iim x → x ≠ p.1 →
        ∃ i, i < m ∧ i ≠ parent hole ∧ (nth h1 i).1 = x := by
      intro x hx hxp
      by_cases hxq : x = q.1
      · refine ⟨hole, hhole, Ne.symm hphh, ?_⟩
        rw [nth_move_self h q hole hholelen, hxq]
      · rw [iim_move_ne h q hole x hxq] at hx
        obtain ⟨i, him, hih, hieq⟩ := B x hx hxp
        have hip : i ≠ parent hole := by
          intro he
          exact hxq (by rw [← hieq, he])
        refine ⟨i, him, hip, ?_⟩
        rw [nth_move_ne h q hole i (by exact fun a => hih a.symm)]
        exact hieq
    have C1 : ∀ i, i < m → i ≠ parent hole → (nth h1 i).1 ≠ p.1 := by
      intro i him hip
      by_cases hih : i = hole
      · rw [hih, nth_move_self h q hole hholelen]
        exact C (parent hole) hphm hphh
      · rw [nth_move_ne h q hole i (by exact fun a => hih a.symm)]
        exact C i him hih
    obtain ⟨ih1, ih2, ih3, ih4, ih5, ih6, ih7, ih8⟩ :=
      ih hm1 hphm A1 B1 C1
    have heq : bubble_up h hole p = bubble_up h1 (parent hole) p := by
      rw [bubble_up.eq_def]
      rw [dif_pos ⟨hpos, hlt⟩]
    rw [heq]
    refine ⟨by rw [ih1, hlen1], le_of_lt (lt_of_le_of_lt ih2 hph), ?_, ih4, ih5, ih6, ih7, ?_⟩
    · intro j hj
      rw [ih3 j hj]
      exact nth_move_ne h q hole j (Nat.ne_of_lt (lt_of_lt_of_le hhole hj))
    · intro x hxp hxs
      have hxs1 : ∀ i, i < m → i ≠ parent hole → (nth h1 i).1 ≠ x := by
        intro i him hip
        by_cases hih : i = hole
        · rw [hih, nth_move_self h q hole hholelen]
          exact hxs (parent hole) hphm hphh
        · rw [nth_move_ne h q hole i (by exact fun a => hih a.symm)]
          exact hxs i him hih
      rw [ih8 x hxp hxs1]
      exact iim_move_ne h q hole x (by
        intro he
        exact hxs (parent hole) hphm hphh (by rw [← he]))
  | case2 h hole p hc =>
    intro hm hhole A B C
    have hholelen : hole < h.data.length := lt_of_lt_of_le hhole hm
    have heq : bubble_up h hole p = (move h p hole, hole) := by
      rw [bubble_up.eq_def]
      rw [dif_neg hc]
    rw [heq]
    refine ⟨length_move h p hole, le_refl hole, ?_, ?_, ?_, ?_, ?_, ?_⟩
    · intro j hj
      exact nth_move_ne h p hole j (Nat.ne_of_lt (lt_of_lt_of_le hhole hj))
    · exact nth_move_self h p hole hholelen
    · exact iim_move_self h p hole
    · intro i him
      by_cases hih : i = hole
      · rw [hih, nth_move_self h p hole hholelen]
        exact iim_move_self h p hole
      · rw [nth_move_ne h p hole i (by exact fun a => hih a.symm)]
        rw [iim_move_ne h p hole _ (C i him hih)]
        exact A i him hih
    · intro x hx
      by_cases hxp : x = p.1
      · refine ⟨hole, hhole, ?_⟩
        rw [nth_move_self h p hole hholelen, hxp]
      · rw [iim_move_ne h p hole x hxp] at hx
        obtain ⟨i, him, hih, hieq⟩ := B x hx hxp
        refine ⟨i, him, ?_⟩
        rw [nth_move_ne h p hole i (by exact fun a => hih a.symm)]
        exact hieq
    · intro x hxp _
      exact iim_move_ne h p hole x hxp

/-- The entries after `bubble_up` are a permutation of the entries obtained by
simply overwriting the hole with the moving pair. -/
theorem bubble_up_perm :
    ∀ (h : BinHeap P) (hole : Nat) (p : Nat × P), hole < h.data.length →
    List.Perm (bubble_up h hole p).1.data (h.data.set hole p) := by
  intro h hole p
  induction h, hole, p using bubble_up.induct with
  | case1 h hole p hc ih =>
    intro hlen
    obtain ⟨hpos, hlt⟩ := hc
    have hph : parent hole < hole := parent_lt hpos
    have hlen1 : parent hole < (move h (nth h (parent hole)) hole).data.length := by
      rw [length_move]; exact lt_trans hph hlen
    have heq : bubble_up h hole p
        = bubble_up (move h (nth h (parent hole)) hole) (parent hole) p := by
      rw [bubble_up.eq_def, dif_pos ⟨hpos, hlt⟩]
    rw [heq]
    refine (ih hlen1).trans ?_
    have : (move h (nth h (parent hole)) hole).data
        = h.data.set hole (h.data.getD (parent hole) default) := rfl
    rw [this]
    exact set_getD_set_perm h.data hole (parent hole) p default
      (Nat.ne_of_gt hph) hlen (lt_trans hph hlen)
  | case2 h hole p hc =>
    intro _
    have heq : bubble_up h hole p = (move h p hole, hole) := by
      rw [bubble_up.eq_def, dif_neg hc]
    rw [heq]
    exact List.Perm.refl _

/-- Order restoration by `bubble_up`: when heap order holds on all considered
slots except the hole, and every child of the hole dominates both the moving
pair and the hole's parent, the resulting state is heap ordered on all
considered slots. -/
theorem bubble_up_ord (m : Nat) :
    ∀ (h : BinHeap P) (hole : Nat) (p : Nat × P),
    m ≤ h.data.length → hole < m →
    (∀ i, i < m → 0 < i → i ≠ hole → ¬ (nth h i).2 < (nth h (parent i)).2) →
    (∀ i, i < m → 0 < i → parent i = hole →
      ¬ (nth h i).2 < p.2 ∧ (0 < hole → ¬ (nth h i).2 < (nth h (parent hole)).2)) →
    ∀ i, i < m → 0 < i →
      ¬ (nth (bubble_up h hole p).1 i).2 < (nth (bubble_up h hole p).1 (parent i)).2 := by
  intro h hole p
  induction h, hole, p using bubble_up.induct with
  | case1 h hole p hc ih =>
    intro hm hhole U1 U2
    obtain ⟨hpos, hlt⟩ := hc
    set q := nth h (parent hole) with hq
    set h1 := move h q hole with hh1
    have hph : parent hole < hole := parent_lt hpos
    have hphm : parent hole < m := lt_trans hph hhole
    have hphh : parent hole ≠ hole := Nat.ne_of_lt hph
    have hholelen : hole < h.data.length := lt_of_lt_of_le hhole hm
    have hm1 : m ≤ h1.data.length := by rw [hh1, length_move]; exact hm
    have hnth1 : ∀ t, t ≠ hole → nth h1 t = nth h t := fun t ht =>
      nth_move_ne h q hole t (fun a => ht a.symm)
    have hnth1h : nth h1 hole = q := nth_move_self h q hole hholelen
    have U1' : ∀ i, i < m → 0 < i → i ≠ parent hole →
        ¬ (nth h1 i).2 < (nth h1 (parent i)).2 := by
      intro i him hipos hipar
      by_cases hih : i = hole
      · rw [hih, hnth1h, hnth1 (parent hole) hphh]
        exact lt_irrefl q.2
      · rw [hnth1 i hih]
        by_cases hpih : parent i = hole
        · rw [hpih, hnth1h]
          exact (U2 i him hipos hpih).2 hpos
        · rw [hnth1 (parent i) hpih]
          exact U1 i him hipos hih
    have U2' : ∀ i, i < m → 0 < i → parent i = parent hole →
        ¬ (nth h1 i).2 < p.2 ∧
          (0 < parent hole → ¬ (nth h1 i).2 < (nth h1 (parent (parent hole))).2) := by
      intro i him hipos hipar
      have hppne : parent (parent hole) ≠ hole := by
        intro he
        have h1' : parent (parent hole) ≤ parent hole := by
          by_cases hp : 0 < parent hole
          · exact le_of_lt (parent_lt hp)
          · simp only [Nat.not_lt, Nat.le_zero] at hp
            rw [hp]; rfl
        omega
      by_cases hih : i = hole
      · subst hih
        rw [hnth1h]
        constructor
        · exact fun hcon => lt_asymm hlt hcon
        · intro hppos
          rw [hnth1 _ hppne]
          exact U1 (parent i) hphm hppos hphh
      · rw [hnth1 i hih]
        have hU1i : ¬ (nth h i).2 < q.2 := by
          have := U1 i him hipos hih
          rw [hipar] at this
          exact this
        constructor
        · intro hcon
          exact hU1i (lt_trans hcon hlt)
        · intro hppos
          rw [hnth1 _ hppne]
          have hU1p : ¬ q.2 < (nth h (parent (parent hole))).2 :=
            U1 (parent hole) hphm hppos hphh
          intro hcon
          exact lt_irrefl _
            (lt_of_lt_of_le hcon (le_trans (not_lt.mp hU1p) (not_lt.mp hU1i)))
    have heq : bubble_up h hole p = bubble_up h1 (parent hole) p := by
      rw [bubble_up.eq_def, dif_pos ⟨hpos, hlt⟩]
    rw [heq]
    exact ih hm1 hphm U1' U2'
  | case2 h hole p hc =>
    intro hm hhole U1 U2
    have hholelen : hole < h.data.length := lt_of_lt_of_le hhole hm
    have heq : bubble_up h hole p = (move h p hole, hole) := by
      rw [bubble_up.eq_def, dif_neg hc]
    rw [heq]
    intro i him hipos
    simp only []
    by_cases hih : i = hole
    · have hppos : 0 < hole := by rw [← hih]; exact hipos
      have hplt : ¬ p.2 < (nth h (parent hole)).2 := by
        intro hcon
        exact hc ⟨hppos, hcon⟩
      have hpne : parent hole ≠ hole := Nat.ne_of_lt (parent_lt hppos)
      rw [hih, nth_move_self h p hole hholelen,
        nth_move_ne h p hole (parent hole) (fun a => hpne a.symm)]
      exact hplt
    · rw [nth_move_ne h p hole i (fun a => hih a.symm)]
      by_cases hpih : parent i = hole
      · rw [hpih, nth_move_self h p hole hholelen]
        exact (U2 i him hipos hpih).1
      · rw [nth_move_ne h p hole (parent i) (fun a => hpih a.symm)]
        exact U1 i him hipos hih

/-! ### The child selected by `bubble_down`

Abbreviation for the value the loop's `child` variable holds after the line
`if (less(_data[child-1], _data[child])) --child;`: the left child when it
compares strictly less than the right one, otherwise the right child. -/

def chosenChild (h : BinHeap P) (hole : Nat) : Nat :=
  if (nth h (second_child hole - 1)).2 < (nth h (second_child hole)).2 then
    second_child hole - 1
  else second_child hole

theorem lt_chosenChild (h : BinHeap P) (hole : Nat) : hole < chosenChild h hole := by
  rw [chosenChild]
  split <;> simp [second_child] <;> omega

theorem chosenChild_lt (h : BinHeap P) (hole len : Nat)
    (hc : second_child hole < len) : chosenChild h hole < len := by
  rw [chosenChild]
  split
  · omega
  · exact hc

theorem parent_chosenChild (h : BinHeap P) (hole : Nat) :
    parent (chosenChild h hole) = hole := by
  rw [chosenChild, parent, second_child]
  split <;> omega

theorem parent_of_child {i hole : Nat} (hp : parent i = hole) (hi : 0 < i) :
    i = 2 * hole + 1 ∨ i = 2 * hole + 2 := by
  rw [parent] at hp
  omega

/-- The selected child is minimal among the hole's children: the other child
of the pair does not compare less than it. -/
theorem chosenChild_min (h : BinHeap P) (hole len : Nat)
    (hc : second_child hole < len) :
    ∀ j, j < len → 0 < j → parent j = hole →
      ¬ (nth h j).2 < (nth h (chosenChild h hole)).2 := by
  intro j hjlen hjpos hjp
  rcases parent_of_child hjp hjpos with hj | hj
  · rw [chosenChild]
    split
    · rw [hj]
      have : second_child hole - 1 = 2 * hole + 1 := by rw [second_child]; omega
      rw [this]
      exact lt_irrefl _
    · rename_i hcc
      rw [hj]
      have : second_child hole - 1 = 2 * hole + 1 := by rw [second_child]; omega
      rw [this] at hcc
      rw [show second_child hole = 2 * hole + 2 from rfl] at hcc ⊢
      exact hcc
  · rw [chosenChild]
    split
    · rename_i hcc
      rw [hj, show second_child hole = 2 * hole + 2 from rfl]
      exact lt_asymm hcc
    · rw [hj, show second_child hole = 2 * hole + 2 from rfl]
      exact lt_irrefl _

theorem bubble_down_eq_step (h : BinHeap P) (hole : Nat) (p : Nat × P) (len : Nat)
    (hc : second_child hole < len)
    (hcond : (nth h (chosenChild h hole)).2 < p.2) :
    bubble_down h hole p len
      = bubble_down (move h (nth h (chosenChild h hole)) hole) (chosenChild h hole) p len := by
  rw [bubble_down.eq_def, dif_pos hc]
  show (if (nth h (chosenChild h hole)).2 < p.2 then _ else _) = _
  rw [if_pos hcond]
  rfl

theorem bubble_down_eq_stop (h : BinHeap P) (hole : Nat) (p : Nat × P) (len : Nat)
    (hc : second_child hole < len)
    (hcond : ¬ (nth h (chosenChild h hole)).2 < p.2) :
    bubble_down h hole p len = (move h p hole, hole) := by
  rw [bubble_down.eq_def, dif_pos hc]
  show (if (nth h (chosenChild h hole)).2 < p.2 then _ else _) = _
  rw [if_neg hcond]

theorem bubble_down_eq_last (h : BinHeap P) (hole : Nat) (p : Nat × P) (len : Nat)
    (hc : ¬ second_child hole < len)
    (hcond : second_child hole - 1 < len ∧ (nth h (second_child hole - 1)).2 < p.2) :
    bubble_down h hole p len
      = ((move h (nth h (second_child hole - 1)) hole).move p (second_child hole - 1),
          second_child hole - 1) := by
  rw [bubble_down.eq_def, dif_neg hc]
  show (if second_child hole - 1 < len ∧ _ then _ else _) = _
  rw [if_pos hcond]

theorem bubble_down_eq_none (h : BinHeap P) (hole : Nat) (p : Nat × P) (len : Nat)
    (hc : ¬ second_child hole < len)
    (hcond : ¬ (second_child hole - 1 < len ∧ (nth h (second_child hole - 1)).2 < p.2)) :
    bubble_down h hole p len = (move h p hole, hole) := by
  rw [bubble_down.eq_def, dif_neg hc]
  show (if second_child hole - 1 < len ∧ _ then _ else _) = _
  rw [if_neg hcond]

/-! ### The joint bookkeeping lemma for `bubble_down`

Same shape as the one for `bubble_up`: slots are considered up to the
`length` argument of the call. -/

theorem bubble_down_good :
    ∀ (h : BinHeap P) (hole : Nat) (p : Nat × P) (len : Nat),
    len ≤ h.data.length → hole < len →
    (∀ i, i < len → i ≠ hole → h.iim (nth h i).1 = (i : Int)) →
    (∀ x, 0 ≤ h.iim x → x ≠ p.1 →
      ∃ i, i < len ∧ i ≠ hole ∧ (nth h i).1 = x) →
    (∀ i, i < len → i ≠ hole → (nth h i).1 ≠ p.1) →
    (bubble_down h hole p len).1.data.length = h.data.length ∧
    (bubble_down h hole p len).2 < len ∧
    (∀ j, len ≤ j → nth (bubble_down h hole p len).1 j = nth h j) ∧
    nth (bubble_down h hole p len).1 (bubble_down h hole p len).2 = p ∧
    (bubble_down h hole p len).1.iim p.1 = ((bubble_down h hole p len).2 : Int) ∧
    (∀ i, i < len →
      (bubble_down h hole p len).1.iim (nth (bubble_down h hole p len).1 i).1 = (i : Int)) ∧
    (∀ x, 0 ≤ (bubble_down h hole p len).1.iim x →
      ∃ i, i < len ∧ (nth (bubble_down h hole p len).1 i).1 = x) ∧
    (∀ x, x ≠ p.1 → (∀ i, i < len → i ≠ hole → (nth h i).1 ≠ x) →
      (bubble_down h hole p len).1.iim x = h.iim x) := by
  intro h hole p len
  induction h, hole, p, len using bubble_down.induct with
  | case1 h hole p len hc child hcond ih =>
    intro hm hhole A B C
    have hcc : chosenChild h hole = child := rfl
    have hcond' : (nth h (chosenChild h hole)).2 < p.2 := by rw [hcc]; exact hcond
    have heq : bubble_down h hole p len
        = bubble_down (move h (nth h child) hole) child p len := by
      have h0 := bubble_down_eq_step h hole p len hc hcond'
      rw [hcc] at h0
      exact h0
    set q := nth h child with hq
    set h1 := move h q hole with hh1
    have hhc : hole < child := hcc ▸ lt_chosenChild h hole
    have hclen : child < len := hcc ▸ chosenChild_lt h hole len hc
    have hch : child ≠ hole := Nat.ne_of_gt hhc
    have hholelen : hole < h.data.length := lt_of_lt_of_le hhole hm
    have hlen1 : h1.data.length = h.data.length := length_move h q hole
    have hdist : ∀ i j, i < len → j < len → i ≠ hole → j ≠ hole → i ≠ j →
        (nth h i).1 ≠ (nth h j).1 := by
      intro i j him hjm hih hjh hij he
      have h1' := A i him hih
      have h2' := A j hjm hjh
      rw [he, h2'] at h1'
      exact hij (by exact_mod_cast h1'.symm)
    have hm1 : len ≤ h1.data.length := by rw [hlen1]; exact hm
    have A1 : ∀ i, i < len → i ≠ child → h1.iim (nth h1 i).1 = (i : Int) := by
      intro i him hic
      by_cases hih : i = hole
      · rw [hih, nth_move_self h q hole hholelen]
        exact iim_move_self h q hole
      · rw [nth_move_ne h q hole i (fun a => hih a.symm)]
        have hne : (nth h i).1 ≠ q.1 := hdist i child him hclen hih hch hic
        rw [iim_move_ne h q hole _ hne]
        exact A i him hih
    have B1 : ∀ x, 0 ≤ h1.iim x → x ≠ p.1 →
        ∃ i, i < len ∧ i ≠ child ∧ (nth h1 i).1 = x := by
      intro x hx hxp
      by_cases hxq : x = q.1
      · refine ⟨hole, hhole, Ne.symm hch, ?_⟩
        rw [nth_move_self h q hole hholelen, hxq]
      · rw [iim_move_ne h q hole x hxq] at hx
        obtain ⟨i, him, hih, hieq⟩ := B x hx hxp
        have hic : i ≠ child := by
          intro he
          exact hxq (by rw [← hieq, he])
        refine ⟨i, him, hic, ?_⟩
        rw [nth_move_ne h q hole i (fun a => hih a.symm)]
        exact hieq
    have C1 : ∀ i, i < len → i ≠ child → (nth h1 i).1 ≠ p.1 := by
      intro i him hic
      by_cases hih : i = hole
      · rw [hih, nth_move_self h q hole hholelen]
        exact C child hclen hch
      · rw [nth_move_ne h q hole i (fun a => hih a.symm)]
        exact C i him hih
    obtain ⟨ih1, ih2, ih3, ih4, ih5, ih6, ih7, ih8⟩ :=
      ih hm1 hclen A1 B1 C1
    rw [heq]
    refine ⟨by rw [ih1, hlen1], ih2, ?_, ih4, ih5, ih6, ih7, ?_⟩
    · intro j hj
      rw [ih3 j hj]
      exact nth_move_ne h q hole j (Nat.ne_of_lt (lt_of_lt_of_le hhole hj))
    · intro x hxp hxs
      have hxq : x ≠ q.1 := by
        intro he
        exact hxs child hclen hch (by rw [← he])
      have hxs1 : ∀ i, i < len → i ≠ child → (nth h1 i).1 ≠ x := by
        intro i him hic
        by_cases hih : i = hole
        · rw [hih, nth_move_self h q hole hholelen]
          exact fun a => hxq a.symm
        · rw [nth_move_ne h q hole i (fun a => hih a.symm)]
          exact hxs i him hih
      rw [ih8 x hxp hxs1]
      exact iim_move_ne h q hole x hxq
  | case2 h hole p len hc child hcond =>
    intro hm hhole A B C
    have hcc : chosenChild h hole = child := rfl
    have hcond' : ¬ (nth h (chosenChild h hole)).2 < p.2 := by rw [hcc]; exact hcond
    have hholelen : hole < h.data.length := lt_of_lt_of_le hhole hm
    have heq : bubble_down h hole p len = (move h p hole, hole) :=
      bubble_down_eq_stop h hole p len hc hcond'
    rw [heq]
    refine ⟨length_move h p hole, hhole, ?_, ?_, ?_, ?_, ?_, ?_⟩
    · intro j hj
      exact nth_move_ne h p hole j (Nat.ne_of_lt (lt_of_lt_of_le hhole hj))
    · exact nth_move_self h p hole hholelen
    · exact iim_move_self h p hole
    · intro i him
      by_cases hih : i = hole
      · rw [hih, nth_move_self h p hole hholelen]
        exact iim_move_self h p hole
      · rw [nth_move_ne h p hole i (fun a => hih a.symm)]
        rw [iim_move_ne h p hole _ (C i him hih)]
        exact A i him hih
    · intro x hx
      by_cases hxp : x = p.1
      · refine ⟨hole, hhole, ?_⟩
        rw [nth_move_self h p hole hholelen, hxp]
      · rw [iim_move_ne h p hole x hxp] at hx
        obtain ⟨i, him, hih, hieq⟩ := B x hx hxp
        refine ⟨i, him, ?_⟩
        rw [nth_move_ne h p hole i (fun a => hih a.symm)]
        exact hieq
    · intro x hxp _
      exact iim_move_ne h p hole x hxp
  | case3 h hole p len hc child hcond =>
    intro hm hhole A B C
    have hcc : second_child hole - 1 = child := rfl
    obtain ⟨hclen, hcv⟩ := hcond
    have heq : bubble_down h hole p len
        = ((move h (nth h child) hole).move p child, child) := by
      have h0 := bubble_down_eq_last h hole p len hc
        ⟨by rw [hcc]; exact hclen, by rw [hcc]; exact hcv⟩
      rw [hcc] at h0
      exact h0
    set q := nth h child with hq
    have hhc : hole < child := by
      rw [← hcc, second_child]; omega
    have hch : child ≠ hole := Nat.ne_of_gt hhc
    have hholelen : hole < h.data.length := lt_of_lt_of_le hhole hm
    have hclendata : child < h.data.length := lt_of_lt_of_le hclen hm
    have hclen1 : child < (move h q hole).data.length := by
      rw [length_move]; exact hclendata
    have hdist : ∀ i j, i < len → j < len → i ≠ hole → j ≠ hole → i ≠ j →
        (nth h i).1 ≠ (nth h j).1 := by
      intro i j him hjm hih hjh hij he
      have h1' := A i him hih
      have h2' := A j hjm hjh
      rw [he, h2'] at h1'
      exact hij (by exact_mod_cast h1'.symm)
    have hqp : q.1 ≠ p.1 := C child hclen hch
    rw [heq]
    have hnth2 : ∀ t, t ≠ hole → t ≠ child →
        nth ((move h q hole).move p child) t = nth h t := by
      intro t th tc
      rw [nth_move_ne _ p child t (fun a => tc a.symm),
        nth_move_ne h q hole t (fun a => th a.symm)]
    have hnthc : nth ((move h q hole).move p child) child = p :=
      nth_move_self _ p child hclen1
    have hnthh : nth ((move h q hole).move p child) hole = q := by
      rw [nth_move_ne _ p child hole hch]
      exact nth_move_self h q hole hholelen
    have hiim2 : ∀ x, x ≠ p.1 → x ≠ q.1 →
        ((move h q hole).move p child).iim x = h.iim x := by
      intro x hxp hxq
      rw [iim_move_ne _ p child x hxp, iim_move_ne h q hole x hxq]
    refine ⟨?_, hclen, ?_, hnthc, ?_, ?_, ?_, ?_⟩
    · rw [length_move, length_move]
    · intro j hj
      exact hnth2 j (Nat.ne_of_gt (lt_of_lt_of_le hhole hj))
        (Nat.ne_of_gt (lt_of_lt_of_le hclen hj))
    · exact iim_move_self _ p child
    · intro i him
      by_cases hic : i = child
      · rw [hic, hnthc]
        exact iim_move_self _ p child
      · by_cases hih : i = hole
        · rw [hih, hnthh]
          rw [iim_move_ne _ p child q.1 hqp]
          exact iim_move_self h q hole
        · rw [hnth2 i hih hic]
          have hxp : (nth h i).1 ≠ p.1 := C i him hih
          have hxq : (nth h i).1 ≠ q.1 := hdist i child him hclen hih hch hic
          rw [hiim2 _ hxp hxq]
          exact A i him hih
    · intro x hx
      by_cases hxp : x = p.1
      · exact ⟨child, hclen, by rw [hnthc, hxp]⟩
      · by_cases hxq : x = q.1
        · exact ⟨hole, hhole, by rw [hnthh, hxq]⟩
        · rw [hiim2 x hxp hxq] at hx
          obtain ⟨i, him, hih, hieq⟩ := B x hx hxp
          have hic : i ≠ child := by
            intro he
            exact hxq (by rw [← hieq, he])
          exact ⟨i, him, by rw [hnth2 i hih hic]; exact hieq⟩
    · intro x hxp hxs
      have hxq : x ≠ q.1 := by
        intro he
        exact hxs child hclen hch (by rw [← he])
      exact hiim2 x hxp hxq
  | case4 h hole p len hc child hcond =>
    intro hm hhole A B C
    have hholelen : hole < h.data.length := lt_of_lt_of_le hhole hm
    have heq : bubble_down h hole p len = (move h p hole, hole) :=
      bubble_down_eq_none h hole p len hc hcond
    rw [heq]
    refine ⟨length_move h p hole, hhole, ?_, ?_, ?_, ?_, ?_, ?_⟩
    · intro j hj
      exact nth_move_ne h p hole j (Nat.ne_of_lt (lt_of_lt_of_le hhole hj))
    · exact nth_move_self h p hole hholelen
    · exact iim_move_self h p hole
    · intro i him
      by_cases hih : i = hole
      · rw [hih, nth_move_self h p hole hholelen]
        exact iim_move_self h p hole
      · rw [nth_move_ne h p hole i (fun a => hih a.symm)]
        rw [iim_move_ne h p hole _ (C i him hih)]
        exact A i him hih
    · intro x hx
      by_cases hxp : x = p.1
      · refine ⟨hole, hhole, ?_⟩
        rw [nth_move_self h p hole hholelen, hxp]
      · rw [iim_move_ne h p hole x hxp] at hx
        obtain ⟨i, him, hih, hieq⟩ := B x hx hxp
        refine ⟨i, him, ?_⟩
        rw [nth_move_ne h p hole i (fun a => hih a.symm)]
        exact hieq
    · intro x hxp _
      exact iim_move_ne h p hole x hxp

/-- The entries after `bubble_down` are a permutation of the entries obtained
by overwriting the hole with the moving pair. -/
theorem bubble_down_perm :
    ∀ (h : BinHeap P) (hole : Nat) (p : Nat × P) (len : Nat),
    hole < len → len ≤ h.data.length →
    List.Perm (bubble_down h hole p len).1.data (h.data.set hole p) := by
  intro h hole p len
  induction h, hole, p, len using bubble_down.induct with
  | case1 h hole p len hc child hcond ih =>
    intro hhole hm
    have hcc : chosenChild h hole = child := rfl
    have hcond' : (nth h (chosenChild h hole)).2 < p.2 := by rw [hcc]; exact hcond
    have heq : bubble_down h hole p len
        = bubble_down (move h (nth h child) hole) child p len := by
      have h0 := bubble_down_eq_step h hole p len hc hcond'
      rw [hcc] at h0
      exact h0
    have hhc : hole < child := hcc ▸ lt_chosenChild h hole
    have hclen : child < len := hcc ▸ chosenChild_lt h hole len hc
    have hm1 : len ≤ (move h (nth h child) hole).data.length := by
      rw [length_move]; exact hm
    rw [heq]
    refine (ih hclen hm1).trans ?_
    have hd : (move h (nth h child) hole).data
        = h.data.set hole (h.data.getD child default) := rfl
    rw [hd]
    exact set_getD_set_perm h.data hole child p default (Nat.ne_of_lt hhc)
      (lt_of_lt_of_le hhole hm) (lt_of_lt_of_le hclen hm)
  | case2 h hole p len hc child hcond =>
    intro hhole hm
    have hcc : chosenChild h hole = child := rfl
    have hcond' : ¬ (nth h (chosenChild h hole)).2 < p.2 := by rw [hcc]; exact hcond
    rw [bubble_down_eq_stop h hole p len hc hcond']
    exact List.Perm.refl _
  | case3 h hole p len hc child hcond =>
    intro hhole hm
    have hcc : second_child hole - 1 = child := rfl
    obtain ⟨hclen, hcv⟩ := hcond
    have heq : bubble_down h hole p len
        = ((move h (nth h child) hole).move p child, child) := by
      have h0 := bubble_down_eq_last h hole p len hc
        ⟨by rw [hcc]; exact hclen, by rw [hcc]; exact hcv⟩
      rw [hcc] at h0
      exact h0
    have hhc : hole < child := by rw [← hcc, second_child]; omega
    rw [heq]
    have hd : ((move h (nth h child) hole).move p child).data
        = (h.data.set hole (h.data.getD child default)).set child p := rfl
    rw [hd]
    exact set_getD_set_perm h.data hole child p default (Nat.ne_of_lt hhc)
      (lt_of_lt_of_le hhole hm) (lt_of_lt_of_le hclen hm)
  | case4 h hole p len hc child hcond =>
    intro hhole hm
    rw [bubble_down_eq_none h hole p len hc hcond]
    exact List.Perm.refl _

/-- Order restoration by `bubble_down`: heap order holds on the considered
slots away from the hole, the moving pair dominates the hole's parent, and so
does every child of the hole; afterwards heap order holds on all considered
slots. -/
theorem bubble_down_ord :
    ∀ (h : BinHeap P) (hole : Nat) (p : Nat × P) (len : Nat),
    len ≤ h.data.length → hole < len →
    (∀ i, i < len → 0 < i → i ≠ hole → parent i ≠ hole →
      ¬ (nth h i).2 < (nth h (parent i)).2) →
    (0 < hole → ¬ p.2 < (nth h (parent hole)).2) →
    (0 < hole → ∀ i, i < len → parent i = hole →
      ¬ (nth h i).2 < (nth h (parent hole)).2) →
    ∀ i, i < len → 0 < i →
      ¬ (nth (bubble_down h hole p len).1 i).2
        < (nth (bubble_down h hole p len).1 (parent i)).2 := by
  intro h hole p len
  induction h, hole, p, len using bubble_down.induct with
  | case1 h hole p len hc child hcond ih =>
    intro hm hhole Q1 Q2 Q3
    have hcc : chosenChild h hole = child := rfl
    have hcond' : (nth h (chosenChild h hole)).2 < p.2 := by rw [hcc]; exact hcond
    have heq : bubble_down h hole p len
        = bubble_down (move h (nth h child) hole) child p len := by
      have h0 := bubble_down_eq_step h hole p len hc hcond'
      rw [hcc] at h0
      exact h0
    set q := nth h child with hq
    set h1 := move h q hole with hh1
    have hhc : hole < child := hcc ▸ lt_chosenChild h hole
    have hclen : child < len := hcc ▸ chosenChild_lt h hole len hc
    have hch : child ≠ hole := Nat.ne_of_gt hhc
    have hpc : parent child = hole := hcc ▸ parent_chosenChild h hole
    have hholelen : hole < h.data.length := lt_of_lt_of_le hhole hm
    have hm1 : len ≤ h1.data.length := by rw [hh1, length_move]; exact hm
    have hnth1 : ∀ t, t ≠ hole → nth h1 t = nth h t := fun t ht =>
      nth_move_ne h q hole t (fun a => ht a.symm)
    have hnth1h : nth h1 hole = q := nth_move_self h q hole hholelen
    have hmin : ∀ j, j < len → 0 < j → parent j = hole →
        ¬ (nth h j).2 < q.2 := by
      intro j hjl hjp hjh
      have := chosenChild_min h hole len hc j hjl hjp hjh
      rw [hcc] at this
      exact this
    have Q1' : ∀ i, i < len → 0 < i → i ≠ child → parent i ≠ child →
        ¬ (nth h1 i).2 < (nth h1 (parent i)).2 := by
      intro i him hipos hic hipc
      by_cases hih : i = hole
      · have hpos : 0 < hole := by rw [← hih]; exact hipos
        have hpp : parent hole ≠ hole := Nat.ne_of_lt (parent_lt hpos)
        rw [hih, hnth1h, hnth1 (parent hole) hpp]
        exact Q3 hpos child hclen hpc
      · rw [hnth1 i hih]
        by_cases hpih : parent i = hole
        · rw [hpih, hnth1h]
          exact hmin i him hipos hpih
        · rw [hnth1 (parent i) hpih]
          exact Q1 i him hipos hih hpih
    have Q2' : 0 < child → ¬ p.2 < (nth h1 (parent child)).2 := by
      intro _
      rw [hpc, hnth1h]
      exact lt_asymm hcond
    have Q3' : 0 < child → ∀ i, i < len → parent i = child →
        ¬ (nth h1 i).2 < (nth h1 (parent child)).2 := by
      intro hcpos i him hipc
      have hipos : 0 < i := by
        rcases Nat.eq_zero_or_pos i with h0 | h0
        · rw [h0] at hipc
          simp [parent] at hipc
          omega
        · exact h0
      have hichild : child < i := by
        rcases parent_of_child hipc hipos with hcase | hcase <;> omega
      rw [hpc, hnth1h, hnth1 i (by omega)]
      have := Q1 i him hipos (by omega) (by rw [hipc]; exact Nat.ne_of_gt hhc)
      rw [hipc] at this
      exact this
    rw [heq]
    exact ih hm1 hclen Q1' Q2' Q3'
  | case2 h hole p len hc child hcond =>
    intro hm hhole Q1 Q2 Q3
    have hcc : chosenChild h hole = child := rfl
    have hcond' : ¬ (nth h (chosenChild h hole)).2 < p.2 := by rw [hcc]; exact hcond
    have hholelen : hole < h.data.length := lt_of_lt_of_le hhole hm
    rw [bubble_down_eq_stop h hole p len hc hcond']
    intro i him hipos
    by_cases hih : i = hole
    · have hpos : 0 < hole := by rw [← hih]; exact hipos
      have hpp : parent hole ≠ hole := Nat.ne_of_lt (parent_lt hpos)
      rw [hih, nth_move_self h p hole hholelen,
        nth_move_ne h p hole (parent hole) (fun a => hpp a.symm)]
      exact Q2 hpos
    · rw [nth_move_ne h p hole i (fun a => hih a.symm)]
      by_cases hpih : parent i = hole
      · rw [hpih, nth_move_self h p hole hholelen]
        have h1 := chosenChild_min h hole len hc i him hipos hpih
        rw [hcc] at h1
        exact not_lt.mpr (le_trans (not_lt.mp hcond') (not_lt.mp h1))
      · rw [nth_move_ne h p hole (parent i) (fun a => hpih a.symm)]
        exact Q1 i him hipos hih hpih
  | case3 h hole p len hc child hcond =>
    intro hm hhole Q1 Q2 Q3
    have hcc : second_child hole - 1 = child := rfl
    obtain ⟨hclen, hcv⟩ := hcond
    have heq : bubble_down h hole p len
        = ((move h (nth h child) hole).move p child, child) := by
      have h0 := bubble_down_eq_last h hole p len hc
        ⟨by rw [hcc]; exact hclen, by rw [hcc]; exact hcv⟩
      rw [hcc] at h0
      exact h0
    set q := nth h child with hq
    have hc2 : child = 2 * hole + 1 := by rw [← hcc, second_child]; omega
    have hlen2 : len ≤ 2 * hole + 2 := by
      rw [second_child] at hc; omega
    have hhc : hole < child := by omega
    have hch : child ≠ hole := Nat.ne_of_gt hhc
    have hpc : parent child = hole := by rw [hc2, parent]; omega
    have hholelen : hole < h.data.length := lt_of_lt_of_le hhole hm
    have hclen1 : child < (move h q hole).data.length := by
      rw [length_move]; exact lt_of_lt_of_le hclen hm
    rw [heq]
    have hnth2 : ∀ t, t ≠ hole → t ≠ child →
        nth ((move h q hole).move p child) t = nth h t := by
      intro t th tc
      rw [nth_move_ne _ p child t (fun a => tc a.symm),
        nth_move_ne h q hole t (fun a => th a.symm)]
    have hnthc : nth ((move h q hole).move p child) child = p :=
      nth_move_self _ p child hclen1
    have hnthh : nth ((move h q hole).move p child) hole = q := by
      rw [nth_move_ne _ p child hole hch]
      exact nth_move_self h q hole hholelen
    intro i him hipos
    by_cases hic : i = child
    · rw [hic, hpc, hnthc, hnthh]
      exact lt_asymm hcv
    · by_cases hih : i = hole
      · have hpos : 0 < hole := by rw [← hih]; exact hipos
        have hpplt : parent hole < hole := parent_lt hpos
        rw [hih, hnthh, hnth2 (parent hole) (Nat.ne_of_lt hpplt) (by omega)]
        exact Q3 hpos child hclen hpc
      · by_cases hpih : parent i = hole
        · exfalso
          rcases parent_of_child hpih hipos with hcase | hcase <;> omega
        · by_cases hpic : parent i = child
          · exfalso
            rcases parent_of_child hpic hipos with hcase | hcase <;> omega
          · rw [hnth2 i hih hic, hnth2 (parent i) hpih hpic]
            exact Q1 i him hipos hih hpih
  | case4 h hole p len hc child hcond =>
    intro hm hhole Q1 Q2 Q3
    have hcc : second_child hole - 1 = child := rfl
    have hc2 : child = 2 * hole + 1 := by rw [← hcc, second_child]; omega
    have hlen2 : len ≤ 2 * hole + 2 := by
      rw [second_child] at hc; omega
    have hholelen : hole < h.data.length := lt_of_lt_of_le hhole hm
    rw [bubble_down_eq_none h hole p len hc hcond]
    intro i him hipos
    by_cases hih : i = hole
    · have hpos : 0 < hole := by rw [← hih]; exact hipos
      have hpp : parent hole ≠ hole := Nat.ne_of_lt (parent_lt hpos)
      rw [hih, nth_move_self h p hole hholelen,
        nth_move_ne h p hole (parent hole) (fun a => hpp a.symm)]
      exact Q2 hpos
    · rw [nth_move_ne h p hole i (fun a => hih a.symm)]
      by_cases hpih : parent i = hole
      · rw [hpih, nth_move_self h p hole hholelen]
        have hichild : i = child := by
          rcases parent_of_child hpih hipos with hcase | hcase <;> omega
        intro hcon
        exact hcond ⟨by rw [← hichild]; exact him, by rw [← hichild]; exact hcon⟩
      · rw [nth_move_ne h p hole (parent i) (fun a => hpih a.symm)]
        exact Q1 i him hipos hih hpih

/-! ### The heap invariant -/

/-- Heap order (invariant 2 of the specification): no non-root entry compares
less than the entry at its parent slot. -/
def heapOrd (h : BinHeap P) : Prop :=
  ∀ i, i < h.data.length → 0 < i → ¬ (nth h i).2 < (nth h (parent i)).2

/-- The full representation invariant: index coherence, the converse
membership property, and heap order. -/
structure Inv (h : BinHeap P) : Prop where
  coh : ∀ i, i < h.data.length → h.iim (nth h i).1 = (i : Int)
  mem : ∀ x, 0 ≤ h.iim x →
    (h.iim x).toNat < h.data.length ∧ (nth h (h.iim x).toNat).1 = x
  ord : heapOrd h

theorem Inv.distinct {h : BinHeap P} (hInv : Inv h) {i j : Nat}
    (hi : i < h.data.length) (hj : j < h.data.length) (hij : i ≠ j) :
    (nth h i).1 ≠ (nth h j).1 := by
  intro he
  have h1 := hInv.coh i hi
  have h2 := hInv.coh j hj
  rw [he, h2] at h1
  exact hij (by exact_mod_cast h1.symm)

/-! ### Entry behaviour of `bubble_up` -/

theorem bubble_up_eq_stop (h : BinHeap P) (hole : Nat) (p : Nat × P)
    (hc : ¬ (0 < hole ∧ p.2 < (nth h (parent hole)).2)) :
    bubble_up h hole p = (move h p hole, hole) := by
  rw [bubble_up.eq_def, dif_neg hc]

theorem bubble_up_eq_step (h : BinHeap P) (hole : Nat) (p : Nat × P)
    (hc : 0 < hole ∧ p.2 < (nth h (parent hole)).2) :
    bubble_up h hole p
      = bubble_up (move h (nth h (parent hole)) hole) (parent hole) p := by
  rw [bubble_up.eq_def, dif_pos hc]

theorem bubble_up_le :
    ∀ (h : BinHeap P) (hole : Nat) (p : Nat × P), (bubble_up h hole p).2 ≤ hole := by
  intro h hole p
  induction h, hole, p using bubble_up.induct with
  | case1 h hole p hc ih =>
    rw [bubble_up_eq_step h hole p hc]
    exact le_trans ih (le_of_lt (parent_lt hc.1))
  | case2 h hole p hc =>
    rw [bubble_up_eq_stop h hole p hc]

theorem bubble_up_lt (h : BinHeap P) (hole : Nat) (p : Nat × P)
    (hc : 0 < hole ∧ p.2 < (nth h (parent hole)).2) :
    (bubble_up h hole p).2 < hole := by
  rw [bubble_up_eq_step h hole p hc]
  exact lt_of_le_of_lt (bubble_up_le _ _ _) (parent_lt hc.1)

/-! ### Specification of `push` -/

theorem push_spec (h : BinHeap P) (i : Nat) (p : P)
    (hInv : Inv h) (hpre : h.iim i < 0) :
    Inv (push h (i, p)) ∧
    (push h (i, p)).data.length = h.data.length + 1 ∧
    List.Perm (push h (i, p)).data (h.data ++ [(i, p)]) ∧
    0 ≤ (push h (i, p)).iim i ∧
    (∀ x, x ≠ i → (∀ s, s < h.data.length → (nth h s).1 ≠ x) →
      (push h (i, p)).iim x = h.iim x) := by
  set n := h.data.length with hn
  set h' : BinHeap P := { h with data := h.data ++ [default] } with hh'
  have hlen' : h'.data.length = n + 1 := by
    rw [hh']
    simp
  have hnth' : ∀ t, t < n → nth h' t = nth h t := by
    intro t ht
    show (h.data ++ [default]).getD t default = h.data.getD t default
    exact getD_append_left h.data [default] t default ht
  have hm : n + 1 ≤ h'.data.length := le_of_eq hlen'.symm
  have hhole : n < n + 1 := Nat.lt_succ_self n
  have A : ∀ t, t < n + 1 → t ≠ n → h'.iim (nth h' t).1 = (t : Int) := by
    intro t ht htn
    have htn' : t < n := by omega
    rw [hnth' t htn']
    exact hInv.coh t htn'
  have B : ∀ x, 0 ≤ h'.iim x → x ≠ i →
      ∃ t, t < n + 1 ∧ t ≠ n ∧ (nth h' t).1 = x := by
    intro x hx _
    obtain ⟨hs, he⟩ := hInv.mem x hx
    refine ⟨(h.iim x).toNat, by omega, by omega, ?_⟩
    rw [hnth' _ hs]
    exact he
  have C : ∀ t, t < n + 1 → t ≠ n → (nth h' t).1 ≠ i := by
    intro t ht htn he
    have htn' : t < n := by omega
    rw [hnth' t htn'] at he
    have hco := hInv.coh t htn'
    rw [he] at hco
    rw [hco] at hpre
    omega
  obtain ⟨g1, g2, g3, g4, g5, g6, g7, g8⟩ :=
    bubble_up_good (n + 1) h' n (i, p) hm hhole A B C
  have U1 : ∀ t, t < n + 1 → 0 < t → t ≠ n →
      ¬ (nth h' t).2 < (nth h' (parent t)).2 := by
    intro t ht htpos htn
    have htn' : t < n := by omega
    rw [hnth' t htn', hnth' (parent t) (lt_trans (parent_lt htpos) htn')]
    exact hInv.ord t htn' htpos
  have U2 : ∀ t, t < n + 1 → 0 < t → parent t = n →
      ¬ (nth h' t).2 < (i, p).2 ∧
        (0 < n → ¬ (nth h' t).2 < (nth h' (parent n)).2) := by
    intro t ht htpos hpt
    exfalso
    rcases parent_of_child hpt htpos with hc | hc <;> omega
  have hord := bubble_up_ord (n + 1) h' n (i, p) hm hhole U1 U2
  have hpushdef : push h (i, p) = (bubble_up h' n (i, p)).1 := rfl
  have hpushlen : (push h (i, p)).data.length = n + 1 := by
    rw [hpushdef, g1, hlen']
  refine ⟨⟨?_, ?_, ?_⟩, hpushlen, ?_, ?_, ?_⟩
  · intro t ht
    rw [hpushlen] at ht
    rw [hpushdef]
    exact g6 t ht
  · intro x hx
    rw [hpushdef] at hx ⊢
    obtain ⟨t, ht, he⟩ := g7 x hx
    have := g6 t ht
    rw [he] at this
    rw [this]
    constructor
    · rw [Int.toNat_natCast, g1, hlen']
      exact ht
    · rw [Int.toNat_natCast]
      exact he
  · intro t ht htpos
    rw [hpushlen] at ht
    rw [hpushdef]
    exact hord t ht htpos
  · rw [hpushdef]
    refine (bubble_up_perm h' n (i, p) (by rw [hlen']; omega)).trans ?_
    have : h'.data.set n (i, p) = h.data ++ [(i, p)] := by
      rw [hh']
      exact set_append_length h.data (i, p) default
    rw [this]
  · rw [hpushdef, g5]
    exact Int.natCast_nonneg _
  · intro x hxi hxs
    rw [hpushdef]
    have hxs' : ∀ t, t < n + 1 → t ≠ n → (nth h' t).1 ≠ x := by
      intro t ht htn
      have htn' : t < n := by omega
      rw [hnth' t htn']
      exact hxs t htn'
    exact g8 x hxi hxs'

/-! ### Specification of `pop` -/

theorem pop_spec (h : BinHeap P) (hInv : Inv h) (hne : h.data ≠ []) :
    Inv (pop h) ∧
    (pop h).data.length = h.data.length - 1 ∧
    List.Perm (nth h 0 :: (pop h).data) h.data ∧
    (pop h).iim (top h) = POST_HEAP := by
  set n := h.data.length - 1 with hn
  have hlen : h.data.length = n + 1 := by
    have := List.length_pos.mpr hne
    omega
  set h1 : BinHeap P :=
    { h with iim := fun x => if x = (nth h 0).1 then POST_HEAP else h.iim x } with hh1
  set h2 := if 0 < n then (bubble_down h1 0 (nth h1 n) n).1 else h1 with hh2
  have hpop : pop h = { h2 with data := h2.data.dropLast } := rfl
  have hnth1 : ∀ t, nth h1 t = nth h t := fun t => rfl
  have hlen1 : h1.data.length = n + 1 := hlen
  have hiim1top : h1.iim (top h) = POST_HEAP := by
    show (if (nth h 0).1 = (nth h 0).1 then POST_HEAP else h.iim (nth h 0).1) = POST_HEAP
    rw [if_pos rfl]
  have hiim1 : ∀ x, x ≠ (nth h 0).1 → h1.iim x = h.iim x := by
    intro x hx
    show (if x = (nth h 0).1 then POST_HEAP else h.iim x) = h.iim x
    rw [if_neg hx]
  rcases Nat.eq_zero_or_pos n with hn0 | npos
  · -- singleton heap
    have hh2eq : h2 = h1 := by
      rw [hh2, hn0]
      rw [if_neg (lt_irrefl 0)]
    have hlen2 : h2.data.length = 1 := by rw [hh2eq, hlen1, hn0]
    have hpoplen : (pop h).data.length = 0 := by
      rw [hpop]
      show h2.data.dropLast.length = 0
      rw [List.length_dropLast, hlen2]
    have hnomem : ∀ x, ¬ 0 ≤ (pop h).iim x := by
      intro x hx
      have hx2 : 0 ≤ h2.iim x := hx
      rw [hh2eq] at hx2
      by_cases hxt : x = top h
      · rw [hxt, hiim1top] at hx2
        rw [POST_HEAP] at hx2
        omega
      · rw [hiim1 x hxt] at hx2
        obtain ⟨hs, he⟩ := hInv.mem x hx2
        have hs0 : (h.iim x).toNat = 0 := by omega
        rw [hs0] at he
        exact hxt he.symm
    obtain ⟨a, ha⟩ := List.length_eq_one.mp (by rw [hlen, hn0])
    have hnth0 : nth h 0 = a := by
      rw [nth, ha]
      rfl
    refine ⟨⟨?_, ?_, ?_⟩, by omega, ?_, ?_⟩
    · intro t ht
      rw [hpoplen] at ht
      omega
    · intro x hx
      exact absurd hx (hnomem x)
    · intro t ht _
      rw [hpoplen] at ht
      omega
    · have hpd : (pop h).data = [] := List.length_eq_zero.mp hpoplen
      rw [hpd, hnth0, ha]
    · show h2.iim (top h) = POST_HEAP
      rw [hh2eq]
      exact hiim1top
  · -- at least two entries
    set p := nth h1 n with hp
    have hpn : p = nth h n := hnth1 n
    have hh2eq : h2 = (bubble_down h1 0 p n).1 := by
      rw [hh2, if_pos npos]
    have hm : n ≤ h1.data.length := by rw [hlen1]; omega
    have hp1 : p.1 = (nth h n).1 := by rw [hpn]
    have A : ∀ t, t < n → t ≠ 0 → h1.iim (nth h1 t).1 = (t : Int) := by
      intro t ht ht0
      rw [hnth1 t]
      have hd : (nth h t).1 ≠ top h :=
        hInv.distinct (by omega) (by omega) ht0
      rw [hiim1 _ hd]
      exact hInv.coh t (by omega)
    have B : ∀ x, 0 ≤ h1.iim x → x ≠ p.1 →
        ∃ t, t < n ∧ t ≠ 0 ∧ (nth h1 t).1 = x := by
      intro x hx hxp
      by_cases hxt : x = top h
      · rw [hxt, hiim1top, POST_HEAP] at hx
        omega
      · rw [hiim1 x hxt] at hx
        obtain ⟨hs, he⟩ := hInv.mem x hx
        have hsn : (h.iim x).toNat ≠ n := by
          intro hc
          rw [hc] at he
          rw [hp1] at hxp
          exact hxp he.symm
        have hs0 : (h.iim x).toNat ≠ 0 := by
          intro hc
          rw [hc] at he
          exact hxt he.symm
        refine ⟨(h.iim x).toNat, by omega, hs0, ?_⟩
        rw [hnth1]
        exact he
    have C : ∀ t, t < n → t ≠ 0 → (nth h1 t).1 ≠ p.1 := by
      intro t ht ht0
      rw [hnth1 t, hp1]
      exact hInv.distinct (by omega) (by omega) (by omega)
    obtain ⟨g1, g2, g3, g4, g5, g6, g7, g8⟩ :=
      bubble_down_good h1 0 p n hm npos A B C
    have Q1 : ∀ t, t < n → 0 < t → t ≠ 0 → parent t ≠ 0 →
        ¬ (nth h1 t).2 < (nth h1 (parent t)).2 := by
      intro t ht htpos _ _
      rw [hnth1 t, hnth1 (parent t)]
      exact hInv.ord t (by omega) htpos
    have Q2 : 0 < 0 → ¬ p.2 < (nth h1 (parent 0)).2 := by
      intro hcon
      omega
    have Q3 : 0 < 0 → ∀ t, t < n → parent t = 0 →
        ¬ (nth h1 t).2 < (nth h1 (parent 0)).2 := by
      intro hcon
      omega
    have hord := bubble_down_ord h1 0 p n hm npos Q1 Q2 Q3
    have hlen2 : h2.data.length = n + 1 := by
      rw [hh2eq, g1, hlen1]
    have hpoplen : (pop h).data.length = n := by
      rw [hpop]
      show h2.data.dropLast.length = n
      rw [List.length_dropLast, hlen2]
      omega
    have hnthpop : ∀ t, t < n → nth (pop h) t = nth h2 t := by
      intro t ht
      rw [hpop]
      show h2.data.dropLast.getD t default = h2.data.getD t default
      exact getD_dropLast h2.data t default (by rw [hlen2]; omega)
    have hiimpop : (pop h).iim = h2.iim := rfl
    refine ⟨⟨?_, ?_, ?_⟩, by omega, ?_, ?_⟩
    · intro t ht
      rw [hpoplen] at ht
      rw [hnthpop t ht, hiimpop, hh2eq]
      exact g6 t ht
    · intro x hx
      rw [hiimpop, hh2eq] at hx ⊢
      obtain ⟨t, ht, he⟩ := g7 x hx
      have hco := g6 t ht
      rw [he] at hco
      rw [hco, Int.toNat_natCast]
      refine ⟨by rw [hpoplen]; exact ht, ?_⟩
      rw [hnthpop t ht, hh2eq]
      exact he
    · intro t ht htpos
      rw [hpoplen] at ht
      have hpt : parent t < n := lt_trans (parent_lt htpos) ht
      rw [hnthpop t ht, hnthpop (parent t) hpt, hh2eq]
      exact hord t ht htpos
    · -- permutation property
      have hne2 : h2.data ≠ [] := by
        intro hcon
        rw [hcon] at hlen2
        simp at hlen2
      have s1 : List.Perm h2.data (h2.data.getD (h2.data.length - 1) default
          :: h2.data.dropLast) := perm_getD_last_dropLast h2.data default hne2
      have hgl : h2.data.getD (h2.data.length - 1) default = p := by
        have : h2.data.length - 1 = n := by rw [hlen2]; omega
        rw [this]
        show nth h2 n = p
        rw [hh2eq]
        rw [g3 n (le_refl n)]
      rw [hgl] at s1
      have s1' : List.Perm h2.data (p :: (pop h).data) := by
        rw [hpop]
        exact s1
      have s2 : List.Perm h2.data (h1.data.set 0 p) := by
        rw [hh2eq]
        exact bubble_down_perm h1 0 p n npos hm
      have s3 : List.Perm (h1.data.getD 0 default :: h1.data.set 0 p)
          (p :: h1.data) := cons_set_perm h1.data 0 p default (by rw [hlen1]; omega)
      have hg0 : h1.data.getD 0 default = nth h 0 := rfl
      rw [hg0] at s3
      have hd1 : h1.data = h.data := rfl
      rw [hd1] at s2 s3
      have c1 : List.Perm (nth h 0 :: p :: (pop h).data) (p :: h.data) :=
        ((s1'.symm.cons (nth h 0)).trans (s2.cons (nth h 0))).trans s3
      have c2 : List.Perm (p :: nth h 0 :: (pop h).data) (p :: h.data) :=
        (List.Perm.swap (nth h 0) p ((pop h).data)).trans c1
      exact c2.cons_inv
    · show h2.iim (top h) = POST_HEAP
      rw [hh2eq]
      have htp : top h ≠ p.1 := by
        rw [hp1]
        exact hInv.distinct (by omega) (by omega) (by omega)
      have hts : ∀ t, t < n → t ≠ 0 → (nth h1 t).1 ≠ top h := by
        intro t ht ht0
        rw [hnth1 t]
        exact hInv.distinct (by omega) (by omega) ht0
      rw [g8 (top h) htp hts]
      exact hiim1top

/-! ### Specification of `erase` -/

theorem erase_spec (h : BinHeap P) (i : Nat) (hInv : Inv h) (hpre : 0 ≤ h.iim i) :
    Inv (erase h i) ∧
    (erase h i).data.length = h.data.length - 1 ∧
    (erase h i).iim i = POST_HEAP := by
  obtain ⟨hslen, hsitem⟩ := hInv.mem i hpre
  set s := (h.iim i).toNat with hs
  set n := h.data.length - 1 with hn
  have hlen : h.data.length = n + 1 := by omega
  set h1 : BinHeap P :=
    { h with iim := fun x => if x = (nth h s).1 then POST_HEAP else h.iim x } with hh1
  set h2 := if s < n then
      (if (bubble_up h1 s (nth h1 n)).2 = s
        then (bubble_down (bubble_up h1 s (nth h1 n)).1 s
          (nth (bubble_up h1 s (nth h1 n)).1 n) n).1
        else (bubble_up h1 s (nth h1 n)).1)
    else h1 with hh2
  have herase : erase h i = { h2 with data := h2.data.dropLast } := rfl
  have hnth1 : ∀ t, nth h1 t = nth h t := fun t => rfl
  have hlen1 : h1.data.length = n + 1 := hlen
  have hiim1i : h1.iim i = POST_HEAP := by
    show (if i = (nth h s).1 then POST_HEAP else h.iim i) = POST_HEAP
    rw [if_pos hsitem.symm]
  have hiim1 : ∀ x, x ≠ i → h1.iim x = h.iim x := by
    intro x hx
    show (if x = (nth h s).1 then POST_HEAP else h.iim x) = h.iim x
    rw [hsitem, if_neg hx]
  suffices hsuf : h2.data.length = n + 1 ∧
      (∀ t, t < n → h2.iim (nth h2 t).1 = (t : Int)) ∧
      (∀ x, 0 ≤ h2.iim x → ∃ t, t < n ∧ (nth h2 t).1 = x) ∧
      (∀ t, t < n → 0 < t → ¬ (nth h2 t).2 < (nth h2 (parent t)).2) ∧
      h2.iim i = POST_HEAP by
    obtain ⟨hlen2, hcoh2, hmem2, hord2, hiim2⟩ := hsuf
    have hel : (erase h i).data.length = n := by
      rw [herase]
      show h2.data.dropLast.length = n
      rw [List.length_dropLast, hlen2]
      omega
    have hent : ∀ t, t < n → nth (erase h i) t = nth h2 t := by
      intro t ht
      rw [herase]
      show h2.data.dropLast.getD t default = h2.data.getD t default
      exact getD_dropLast h2.data t default (by rw [hlen2]; omega)
    have heiim : (erase h i).iim = h2.iim := rfl
    refine ⟨⟨?_, ?_, ?_⟩, by omega, by rw [heiim]; exact hiim2⟩
    · intro t ht
      rw [hel] at ht
      rw [hent t ht, heiim]
      exact hcoh2 t ht
    · intro x hx
      rw [heiim] at hx ⊢
      obtain ⟨t, ht, he⟩ := hmem2 x hx
      have hco := hcoh2 t ht
      rw [he] at hco
      rw [hco, Int.toNat_natCast]
      exact ⟨by rw [hel]; exact ht, by rw [hent t ht]; exact he⟩
    · intro t ht htpos
      rw [hel] at ht
      rw [hent t ht, hent (parent t) (lt_trans (parent_lt htpos) ht)]
      exact hord2 t ht htpos
  rcases Nat.lt_or_ge s n with hsn | hsn
  · -- the freed slot is not the last one
    set p := nth h1 n with hp
    have hp1 : p.1 = (nth h n).1 := by rw [hp, hnth1]
    set r := bubble_up h1 s p with hr
    have hh2' : h2 = if r.2 = s then (bubble_down r.1 s (nth r.1 n) n).1 else r.1 := by
      rw [hh2, if_pos hsn]
    have hm : n ≤ h1.data.length := by rw [hlen1]; omega
    have hip : i ≠ p.1 := by
      rw [hp1, ← hsitem]
      exact hInv.distinct (by omega) (by omega) (by omega)
    have A : ∀ t, t < n → t ≠ s → h1.iim (nth h1 t).1 = (t : Int) := by
      intro t ht hts
      rw [hnth1 t]
      have hd : (nth h t).1 ≠ i := by
        rw [← hsitem]
        exact hInv.distinct (by omega) (by omega) hts
      rw [hiim1 _ hd]
      exact hInv.coh t (by omega)
    have B : ∀ x, 0 ≤ h1.iim x → x ≠ p.1 →
        ∃ t, t < n ∧ t ≠ s ∧ (nth h1 t).1 = x := by
      intro x hx hxp
      by_cases hxi : x = i
      · rw [hxi, hiim1i, POST_HEAP] at hx
        omega
      · rw [hiim1 x hxi] at hx
        obtain ⟨hu, he⟩ := hInv.mem x hx
        have hus : (h.iim x).toNat ≠ s := by
          intro hc
          rw [hc, hsitem] at he
          exact hxi he.symm
        have hun : (h.iim x).toNat ≠ n := by
          intro hc
          rw [hc] at he
          rw [hp1] at hxp
          exact hxp he.symm
        exact ⟨(h.iim x).toNat, by omega, hus, by rw [hnth1]; exact he⟩
    have C : ∀ t, t < n → t ≠ s → (nth h1 t).1 ≠ p.1 := by
      intro t ht hts
      rw [hnth1 t, hp1]
      exact hInv.distinct (by omega) (by omega) (by omega)
    by_cases hb : 0 < s ∧ p.2 < (nth h1 (parent s)).2
    · -- bubble_up moves the relocated entry at least one level up
      have hrne : r.2 ≠ s := by
        rw [hr]
        exact Nat.ne_of_lt (bubble_up_lt h1 s p hb)
      have hh2r : h2 = r.1 := by rw [hh2', if_neg hrne]
      obtain ⟨b1, b2, b3, b4, b5, b6, b7, b8⟩ :=
        bubble_up_good n h1 s p hm hsn A B C
      have U1 : ∀ t, t < n → 0 < t → t ≠ s →
          ¬ (nth h1 t).2 < (nth h1 (parent t)).2 := by
        intro t ht htpos _
        rw [hnth1 t, hnth1 (parent t)]
        exact hInv.ord t (by omega) htpos
      have U2 : ∀ t, t < n → 0 < t → parent t = s →
          ¬ (nth h1 t).2 < p.2 ∧
            (0 < s → ¬ (nth h1 t).2 < (nth h1 (parent s)).2) := by
        intro t ht htpos hpt
        have h1o : ¬ (nth h t).2 < (nth h s).2 := by
          have := hInv.ord t (by omega) htpos
          rw [hpt] at this
          exact this
        have h2o : ¬ (nth h s).2 < (nth h (parent s)).2 :=
          hInv.ord s (by omega) hb.1
        have hchain : (nth h (parent s)).2 ≤ (nth h t).2 :=
          le_trans (not_lt.mp h2o) (not_lt.mp h1o)
        have hb2 : p.2 < (nth h (parent s)).2 := hb.2
        constructor
        · rw [hnth1 t]
          exact not_lt.mpr (le_of_lt (lt_of_lt_of_le hb2 hchain))
        · intro _
          rw [hnth1 t, hnth1 (parent s)]
          exact not_lt.mpr hchain
      have hord := bubble_up_ord n h1 s p hm hsn U1 U2
      rw [hh2r, hr]
      refine ⟨by rw [b1, hlen1], b6, ?_, hord, ?_⟩
      · intro x hx
        obtain ⟨t, ht, he⟩ := b7 x hx
        exact ⟨t, ht, he⟩
      · have hbi : ∀ t, t < n → t ≠ s → (nth h1 t).1 ≠ i := by
          intro t ht hts
          rw [hnth1 t, ← hsitem]
          exact hInv.distinct (by omega) (by omega) hts
        rw [b8 i hip hbi]
        exact hiim1i
    · -- bubble_up leaves the hole in place; bubble_down runs
      have hre : r = (move h1 p s, s) := by
        rw [hr]
        exact bubble_up_eq_stop h1 s p hb
      have hr2 : r.2 = s := by rw [hre]
      have hh2r : h2 = (bubble_down r.1 s (nth r.1 n) n).1 := by
        rw [hh2', if_pos hr2]
      have hs1 : s < h1.data.length := by omega
      have hrn : nth r.1 n = p := by
        rw [hre]
        show nth (move h1 p s) n = p
        rw [nth_move_ne h1 p s n (by omega)]
      have hr1 : r.1 = move h1 p s := by rw [hre]
      set hA := move h1 p s with hhA
      have hlenA : hA.data.length = n + 1 := by
        rw [hhA, length_move, hlen1]
      have hnthA : ∀ t, t ≠ s → nth hA t = nth h t := by
        intro t ht
        rw [hhA, nth_move_ne h1 p s t (fun a => ht a.symm), hnth1 t]
      have hnthAs : nth hA s = p := by
        rw [hhA]
        exact nth_move_self h1 p s hs1
      have hiimA : ∀ x, x ≠ p.1 → hA.iim x = h1.iim x := by
        intro x hx
        rw [hhA]
        exact iim_move_ne h1 p s x hx
      have hmA : n ≤ hA.data.length := by omega
      have A2 : ∀ t, t < n → t ≠ s → hA.iim (nth hA t).1 = (t : Int) := by
        intro t ht hts
        rw [hnthA t hts]
        have hd1 : (nth h t).1 ≠ p.1 := by
          rw [hp1]
          exact hInv.distinct (by omega) (by omega) (by omega)
        have hd2 : (nth h t).1 ≠ i := by
          rw [← hsitem]
          exact hInv.distinct (by omega) (by omega) hts
        rw [hiimA _ hd1, hiim1 _ hd2]
        exact hInv.coh t (by omega)
      have B2 : ∀ x, 0 ≤ hA.iim x → x ≠ p.1 →
          ∃ t, t < n ∧ t ≠ s ∧ (nth hA t).1 = x := by
        intro x hx hxp
        rw [hiimA x hxp] at hx
        obtain ⟨t, ht, hts, he⟩ := B x hx hxp
        exact ⟨t, ht, hts, by rw [hnthA t hts, ← hnth1 t]; exact he⟩
      have C2 : ∀ t, t < n → t ≠ s → (nth hA t).1 ≠ p.1 := by
        intro t ht hts
        rw [hnthA t hts, hp1]
        exact hInv.distinct (by omega) (by omega) (by omega)
      obtain ⟨d1, d2, d3, d4, d5, d6, d7, d8⟩ :=
        bubble_down_good hA s p n hmA hsn A2 B2 C2
      have Q1 : ∀ t, t < n → 0 < t → t ≠ s → parent t ≠ s →
          ¬ (nth hA t).2 < (nth hA (parent t)).2 := by
        intro t ht htpos hts hpts
        rw [hnthA t hts, hnthA (parent t) hpts]
        exact hInv.ord t (by omega) htpos
      have Q2 : 0 < s → ¬ p.2 < (nth hA (parent s)).2 := by
        intro hspos
        rw [hnthA (parent s) (Nat.ne_of_lt (parent_lt hspos))]
        intro hcon
        exact hb ⟨hspos, by rw [hnth1 (parent s)]; exact hcon⟩
      have Q3 : 0 < s → ∀ t, t < n → parent t = s →
          ¬ (nth hA t).2 < (nth hA (parent s)).2 := by
        intro hspos t ht hpt
        have htpos : 0 < t := by
          rcases Nat.eq_zero_or_pos t with h0 | h0
          · rw [h0] at hpt
            simp [parent] at hpt
            omega
          · exact h0
        have hts : s < t := by
          rcases parent_of_child hpt htpos with hcase | hcase <;> omega
        rw [hnthA t (by omega), hnthA (parent s) (Nat.ne_of_lt (parent_lt hspos))]
        have h1o : ¬ (nth h t).2 < (nth h s).2 := by
          have := hInv.ord t (by omega) htpos
          rw [hpt] at this
          exact this
        have h2o : ¬ (nth h s).2 < (nth h (parent s)).2 :=
          hInv.ord s (by omega) hspos
        exact not_lt.mpr (le_trans (not_lt.mp h2o) (not_lt.mp h1o))
      have hord := bubble_down_ord hA s p n hmA hsn Q1 Q2 Q3
      rw [hh2r, hrn, hr1]
      refine ⟨by rw [d1, hlenA], d6, ?_, hord, ?_⟩
      · intro x hx
        obtain ⟨t, ht, he⟩ := d7 x hx
        exact ⟨t, ht, he⟩
      · have hbi : ∀ t, t < n → t ≠ s → (nth hA t).1 ≠ i := by
          intro t ht hts
          rw [hnthA t hts, ← hsitem]
          exact hInv.distinct (by omega) (by omega) hts
        rw [d8 i hip hbi, hiimA i hip]
        exact hiim1i
  · -- the freed slot is the last one
    have hseq : s = n := by omega
    have hh2e : h2 = h1 := by
      rw [hh2, if_neg (by omega)]
    rw [hh2e]
    refine ⟨hlen1, ?_, ?_, ?_, hiim1i⟩
    · intro t ht
      rw [hnth1 t]
      have hd : (nth h t).1 ≠ i := by
        rw [← hsitem]
        exact hInv.distinct (by omega) (by omega) (by omega)
      rw [hiim1 _ hd]
      exact hInv.coh t (by omega)
    · intro x hx
      by_cases hxi : x = i
      · rw [hxi, hiim1i, POST_HEAP] at hx
        omega
      · rw [hiim1 x hxi] at hx
        obtain ⟨hu, he⟩ := hInv.mem x hx
        have hus : (h.iim x).toNat ≠ s := by
          intro hc
          rw [hc, hsitem] at he
          exact hxi he.symm
        exact ⟨(h.iim x).toNat, by omega, by rw [hnth1]; exact he⟩
    · intro t ht htpos
      rw [hnth1 t, hnth1 (parent t)]
      exact hInv.ord t (by omega) htpos

/-! ### A frame lemma shared by the repositioning operations

When an operation replaces the pair of the item sitting at slot `s` by
`(i, p)` up to permutation, and the resulting state has coherent cross
references, every other item keeps both its membership status and its
priority. -/

end BinHeap

theorem getD_mem_of_lt {α : Type} (l : List α) (i : Nat) (d : α)
    (hi : i < l.length) : l.getD i d ∈ l := by
  have : l.getD i d = l[i] := by
    rw [List.getD_eq_getElem?_getD, List.getElem?_eq_getElem hi]
    rfl
  rw [this]
  exact List.getElem_mem hi

theorem exists_getD_of_mem {α : Type} (l : List α) (a : α) (d : α)
    (ha : a ∈ l) : ∃ i, i < l.length ∧ l.getD i d = a := by
  rcases List.mem_iff_getElem.mp ha with ⟨i, hi, he⟩
  refine ⟨i, hi, ?_⟩
  rw [List.getD_eq_getElem?_getD, List.getElem?_eq_getElem hi, he]
  rfl

namespace BinHeap

theorem reposition_frame (h h' : BinHeap P) (s : Nat) (i : Nat) (p : P)
    (hInv : Inv h) (hs : s < h.data.length) (hitem : (nth h s).1 = i)
    (hperm : List.Perm h'.data (h.data.set s (i, p)))
    (hcoh' : ∀ t, t < h'.data.length → h'.iim (nth h' t).1 = (t : Int))
    (hmem' : ∀ x, 0 ≤ h'.iim x → ∃ t, t < h'.data.length ∧ (nth h' t).1 = x) :
    (∀ x, x ≠ i → 0 ≤ h.iim x → 0 ≤ h'.iim x ∧ prioOf h' x = prioOf h x) ∧
    (∀ x, x ≠ i → 0 ≤ h'.iim x → 0 ≤ h.iim x) := by
  constructor
  · intro x hxi hx
    obtain ⟨hu, he⟩ := hInv.mem x hx
    set u := (h.iim x).toNat with hudef
    have hus : u ≠ s := by
      intro hc
      rw [hc, hitem] at he
      exact hxi he.symm
    have hmemset : nth h u ∈ h.data.set s (i, p) := by
      have h1 : (h.data.set s (i, p)).getD u default = h.data.getD u default :=
        getD_set_ne h.data s u (i, p) default (fun a => hus a.symm)
      have h2 : u < (h.data.set s (i, p)).length := by
        rw [List.length_set]
        exact hu
      have := getD_mem_of_lt (h.data.set s (i, p)) u default h2
      rw [h1] at this
      exact this
    have hmem'' : nth h u ∈ h'.data := hperm.mem_iff.mpr hmemset
    obtain ⟨t, ht, hte⟩ := mem_nth h' (nth h u) hmem''
    have hco := hcoh' t ht
    rw [hte, he] at hco
    refine ⟨by rw [hco]; exact Int.natCast_nonneg t, ?_⟩
    rw [prioOf, prioOf, hco, Int.toNat_natCast, hte]
  · intro x hxi hx
    obtain ⟨t, ht, he⟩ := hmem' x hx
    have hmemt : nth h' t ∈ h'.data := nth_mem h' t ht
    have hmemset : nth h' t ∈ h.data.set s (i, p) := hperm.mem_iff.mp hmemt
    obtain ⟨u, hu, hue⟩ := exists_getD_of_mem _ _ default hmemset
    have hulen : u < h.data.length := by
      rw [List.length_set] at hu
      exact hu
    have hus : u ≠ s := by
      intro hc
      rw [hc] at hue
      rw [getD_set_self h.data s (i, p) default hs] at hue
      rw [← hue] at he
      exact hxi he.symm
    rw [getD_set_ne h.data s u (i, p) default (fun a => hus a.symm)] at hue
    have hco := hInv.coh u hulen
    have : (nth h u).1 = x := by
      show (h.data.getD u default).1 = x
      rw [hue]
      exact he
    rw [this] at hco
    rw [hco]
    exact Int.natCast_nonneg u

/-! ### Specifications of `decrease` and `increase` -/

theorem decrease_spec (h : BinHeap P) (i : Nat) (p : P)
    (hInv : Inv h) (hpre : 0 ≤ h.iim i)
    (hdir : ¬ (nth h (h.iim i).toNat).2 < p) :
    Inv (decrease h i p) ∧
    (decrease h i p).data.length = h.data.length ∧
    (∀ x, 0 ≤ (decrease h i p).iim x ↔ 0 ≤ h.iim x) ∧
    prioOf (decrease h i p) i = p ∧
    (∀ x, x ≠ i → 0 ≤ h.iim x → prioOf (decrease h i p) x = prioOf h x) := by
  obtain ⟨hslen, hsitem⟩ := hInv.mem i hpre
  set s := (h.iim i).toNat with hs
  set n := h.data.length with hn
  have hdec : decrease h i p = (bubble_up h s (i, p)).1 := rfl
  have A : ∀ t, t < n → t ≠ s → h.iim (nth h t).1 = (t : Int) := by
    intro t ht _
    exact hInv.coh t ht
  have B : ∀ x, 0 ≤ h.iim x → x ≠ (i, p).1 →
      ∃ t, t < n ∧ t ≠ s ∧ (nth h t).1 = x := by
    intro x hx hxi
    obtain ⟨hu, he⟩ := hInv.mem x hx
    have hus : (h.iim x).toNat ≠ s := by
      intro hc
      rw [hc, hsitem] at he
      exact hxi he.symm
    exact ⟨(h.iim x).toNat, hu, hus, he⟩
  have C : ∀ t, t < n → t ≠ s → (nth h t).1 ≠ (i, p).1 := by
    intro t ht hts
    show (nth h t).1 ≠ i
    rw [← hsitem]
    exact hInv.distinct ht hslen hts
  obtain ⟨b1, b2, b3, b4, b5, b6, b7, b8⟩ :=
    bubble_up_good n h s (i, p) (le_refl n) hslen A B C
  have U1 : ∀ t, t < n → 0 < t → t ≠ s →
      ¬ (nth h t).2 < (nth h (parent t)).2 := by
    intro t ht htpos _
    exact hInv.ord t ht htpos
  have U2 : ∀ t, t < n → 0 < t → parent t = s →
      ¬ (nth h t).2 < (i, p).2 ∧
        (0 < s → ¬ (nth h t).2 < (nth h (parent s)).2) := by
    intro t ht htpos hpt
    have h1o : ¬ (nth h t).2 < (nth h s).2 := by
      have := hInv.ord t ht htpos
      rw [hpt] at this
      exact this
    constructor
    · exact not_lt.mpr (le_trans (not_lt.mp hdir) (not_lt.mp h1o))
    · intro hspos
      have h2o : ¬ (nth h s).2 < (nth h (parent s)).2 := hInv.ord s hslen hspos
      exact not_lt.mpr (le_trans (not_lt.mp h2o) (not_lt.mp h1o))
  have hord := bubble_up_ord n h s (i, p) (le_refl n) hslen U1 U2
  have hperm := bubble_up_perm h s (i, p) hslen
  rw [hdec]
  have hcoh' : ∀ t, t < (bubble_up h s (i, p)).1.data.length →
      (bubble_up h s (i, p)).1.iim (nth (bubble_up h s (i, p)).1 t).1 = (t : Int) := by
    intro t ht
    rw [b1] at ht
    exact b6 t ht
  have hmem' : ∀ x, 0 ≤ (bubble_up h s (i, p)).1.iim x →
      ∃ t, t < (bubble_up h s (i, p)).1.data.length ∧
        (nth (bubble_up h s (i, p)).1 t).1 = x := by
    intro x hx
    obtain ⟨t, ht, he⟩ := b7 x hx
    exact ⟨t, by rw [b1]; exact ht, he⟩
  obtain ⟨hframe1, hframe2⟩ :=
    reposition_frame h (bubble_up h s (i, p)).1 s i p hInv hslen hsitem
      hperm hcoh' hmem'
  refine ⟨⟨hcoh', ?_, ?_⟩, b1, ?_, ?_, ?_⟩
  · intro x hx
    obtain ⟨t, ht, he⟩ := hmem' x hx
    have hco := hcoh' t ht
    rw [he] at hco
    rw [hco, Int.toNat_natCast]
    exact ⟨ht, he⟩
  · intro t ht htpos
    rw [b1] at ht
    exact hord t ht htpos
  · intro x
    constructor
    · intro hx
      by_cases hxi : x = i
      · rw [hxi]
        exact hpre
      · exact hframe2 x hxi hx
    · intro hx
      by_cases hxi : x = i
      · rw [hxi, b5]
        exact Int.natCast_nonneg _
      · exact (hframe1 x hxi hx).1
  · rw [prioOf, b5, Int.toNat_natCast, b4]
  · intro x hxi hx
    exact (hframe1 x hxi hx).2

theorem increase_spec (h : BinHeap P) (i : Nat) (p : P)
    (hInv : Inv h) (hpre : 0 ≤ h.iim i)
    (hdir : ¬ p < (nth h (h.iim i).toNat).2) :
    Inv (increase h i p) ∧
    (increase h i p).data.length = h.data.length ∧
    (∀ x, 0 ≤ (increase h i p).iim x ↔ 0 ≤ h.iim x) ∧
    prioOf (increase h i p) i = p ∧
    (∀ x, x ≠ i → 0 ≤ h.iim x → prioOf (increase h i p) x = prioOf h x) := by
  obtain ⟨hslen, hsitem⟩ := hInv.mem i hpre
  set s := (h.iim i).toNat with hs
  set n := h.data.length with hn
  have hinc : increase h i p = (bubble_down h s (i, p) n).1 := rfl
  have A : ∀ t, t < n → t ≠ s → h.iim (nth h t).1 = (t : Int) := by
    intro t ht _
    exact hInv.coh t ht
  have B : ∀ x, 0 ≤ h.iim x → x ≠ (i, p).1 →
      ∃ t, t < n ∧ t ≠ s ∧ (nth h t).1 = x := by
    intro x hx hxi
    obtain ⟨hu, he⟩ := hInv.mem x hx
    have hus : (h.iim x).toNat ≠ s := by
      intro hc
      rw [hc, hsitem] at he
      exact hxi he.symm
    exact ⟨(h.iim x).toNat, hu, hus, he⟩
  have C : ∀ t, t < n → t ≠ s → (nth h t).1 ≠ (i, p).1 := by
    intro t ht hts
    show (nth h t).1 ≠ i
    rw [← hsitem]
    exact hInv.distinct ht hslen hts
  obtain ⟨d1, d2, d3, d4, d5, d6, d7, d8⟩ :=
    bubble_down_good h s (i, p) n (le_refl n) hslen A B C
  have Q1 : ∀ t, t < n → 0 < t → t ≠ s → parent t ≠ s →
      ¬ (nth h t).2 < (nth h (parent t)).2 := by
    intro t ht htpos _ _
    exact hInv.ord t ht htpos
  have Q2 : 0 < s → ¬ (i, p).2 < (nth h (parent s)).2 := by
    intro hspos
    have h2o : ¬ (nth h s).2 < (nth h (parent s)).2 := hInv.ord s hslen hspos
    exact not_lt.mpr (le_trans (not_lt.mp h2o) (not_lt.mp hdir))
  have Q3 : 0 < s → ∀ t, t < n → parent t = s →
      ¬ (nth h t).2 < (nth h (parent s)).2 := by
    intro hspos t ht hpt
    have htpos : 0 < t := by
      rcases Nat.eq_zero_or_pos t with h0 | h0
      · rw [h0] at hpt
        simp [parent] at hpt
        omega
      · exact h0
    have h1o : ¬ (nth h t).2 < (nth h s).2 := by
      have := hInv.ord t ht htpos
      rw [hpt] at this
      exact this
    have h2o : ¬ (nth h s).2 < (nth h (parent s)).2 := hInv.ord s hslen hspos
    exact not_lt.mpr (le_trans (not_lt.mp h2o) (not_lt.mp h1o))
  have hord := bubble_down_ord h s (i, p) n (le_refl n) hslen Q1 Q2 Q3
  have hperm := bubble_down_perm h s (i, p) n hslen (le_refl n)
  rw [hinc]
  have hcoh' : ∀ t, t < (bubble_down h s (i, p) n).1.data.length →
      (bubble_down h s (i, p) n).1.iim (nth (bubble_down h s (i, p) n).1 t).1 = (t : Int) := by
    intro t ht
    rw [d1] at ht
    exact d6 t ht
  have hmem' : ∀ x, 0 ≤ (bubble_down h s (i, p) n).1.iim x →
      ∃ t, t < (bubble_down h s (i, p) n).1.data.length ∧
        (nth (bubble_down h s (i, p) n).1 t).1 = x := by
    intro x hx
    obtain ⟨t, ht, he⟩ := d7 x hx
    exact ⟨t, by rw [d1]; omega, he⟩
  obtain ⟨hframe1, hframe2⟩ :=
    reposition_frame h (bubble_down h s (i, p) n).1 s i p hInv hslen hsitem
      hperm hcoh' hmem'
  refine ⟨⟨hcoh', ?_, ?_⟩, d1, ?_, ?_, ?_⟩
  · intro x hx
    obtain ⟨t, ht, he⟩ := hmem' x hx
    have hco := hcoh' t ht
    rw [he] at hco
    rw [hco, Int.toNat_natCast]
    exact ⟨ht, he⟩
  · intro t ht htpos
    rw [d1] at ht
    exact hord t ht htpos
  · intro x
    constructor
    · intro hx
      by_cases hxi : x = i
      · rw [hxi]
        exact hpre
      · exact hframe2 x hxi hx
    · intro hx
      by_cases hxi : x = i
      · rw [hxi, d5]
        exact Int.natCast_nonneg _
      · exact (hframe1 x hxi hx).1
  · rw [prioOf, d5, Int.toNat_natCast, d4]
  · intro x hxi hx
    exact (hframe1 x hxi hx).2

/-! ### `set` as an upsert: its three branches -/

theorem set_eq_push (h : BinHeap P) (i : Nat) (p : P) (hpre : h.iim i < 0) :
    set h i p = push h (i, p) := by
  show (if h.iim i < 0 then push h (i, p)
    else if p < (nth h (h.iim i).toNat).2 then (bubble_up h (h.iim i).toNat (i, p)).1
    else (bubble_down h (h.iim i).toNat (i, p) h.data.length).1) = push h (i, p)
  rw [if_pos hpre]

theorem set_eq_decrease (h : BinHeap P) (i : Nat) (p : P)
    (hpre : 0 ≤ h.iim i) (hlt : p < (nth h (h.iim i).toNat).2) :
    set h i p = decrease h i p := by
  show (if h.iim i < 0 then push h (i, p)
    else if p < (nth h (h.iim i).toNat).2 then (bubble_up h (h.iim i).toNat (i, p)).1
    else (bubble_down h (h.iim i).toNat (i, p) h.data.length).1) = decrease h i p
  rw [if_neg (not_lt.mpr hpre), if_pos hlt]
  rfl

theorem set_eq_increase (h : BinHeap P) (i : Nat) (p : P)
    (hpre : 0 ≤ h.iim i) (hge : ¬ p < (nth h (h.iim i).toNat).2) :
    set h i p = increase h i p := by
  show (if h.iim i < 0 then push h (i, p)
    else if p < (nth h (h.iim i).toNat).2 then (bubble_up h (h.iim i).toNat (i, p)).1
    else (bubble_down h (h.iim i).toNat (i, p) h.data.length).1) = increase h i p
  rw [if_neg (not_lt.mpr hpre), if_neg hge]
  rfl

/-! ### Repositioning to the unchanged priority is the identity -/

theorem move_self_eq (h : BinHeap P) (i : Nat) (p : P)
    (hpre : 0 ≤ h.iim i)
    (hslen : (h.iim i).toNat < h.data.length)
    (hsitem : (nth h (h.iim i).toNat).1 = i)
    (heq : (nth h (h.iim i).toNat).2 = p) :
    move h (i, p) (h.iim i).toNat = h := by
  set s := (h.iim i).toNat with hs
  have hnth : nth h s = (i, p) := by
    rw [← hsitem, ← heq]
  apply BinHeap.ext
  · show h.data.set s (i, p) = h.data
    exact set_eq_of_getD h.data s (i, p) default hslen hnth
  · funext x
    show (if x = i then (s : Int) else h.iim x) = h.iim x
    by_cases hx : x = i
    · rw [if_pos hx, hx, hs, Int.toNat_of_nonneg hpre]
    · rw [if_neg hx]

theorem decrease_eq_self (h : BinHeap P) (i : Nat) (p : P) (hInv : Inv h)
    (hpre : 0 ≤ h.iim i) (heq : (nth h (h.iim i).toNat).2 = p) :
    decrease h i p = h := by
  obtain ⟨hslen, hsitem⟩ := hInv.mem i hpre
  set s := (h.iim i).toNat with hs
  have hstop : ¬ (0 < s ∧ (i, p).2 < (nth h (parent s)).2) := by
    rintro ⟨hspos, hlt⟩
    have := hInv.ord s hslen hspos
    rw [heq] at this
    exact this hlt
  have hd : decrease h i p = (move h (i, p) s, s).1 := by
    show (bubble_up h s (i, p)).1 = _
    rw [bubble_up_eq_stop h s (i, p) hstop]
  rw [hd]
  exact move_self_eq h i p hpre hslen hsitem heq

theorem increase_eq_self (h : BinHeap P) (i : Nat) (p : P) (hInv : Inv h)
    (hpre : 0 ≤ h.iim i) (heq : (nth h (h.iim i).toNat).2 = p) :
    increase h i p = h := by
  obtain ⟨hslen, hsitem⟩ := hInv.mem i hpre
  set s := (h.iim i).toNat with hs
  set n := h.data.length with hn
  have hinc : increase h i p = (bubble_down h s (i, p) n).1 := rfl
  rw [hinc]
  by_cases hc : second_child s < n
  · have hcl : chosenChild h s < n := chosenChild_lt h s n hc
    have hcs : s < chosenChild h s := lt_chosenChild h s
    have hpc : parent (chosenChild h s) = s := parent_chosenChild h s
    have hstop : ¬ (nth h (chosenChild h s)).2 < (i, p).2 := by
      have := hInv.ord (chosenChild h s) hcl (by omega)
      rw [hpc, heq] at this
      exact this
    rw [bubble_down_eq_stop h s (i, p) n hc hstop]
    exact move_self_eq h i p hpre hslen hsitem heq
  · have hstop : ¬ (second_child s - 1 < n ∧
        (nth h (second_child s - 1)).2 < (i, p).2) := by
      rintro ⟨hcl, hlt⟩
      have hpc : parent (second_child s - 1) = s := by
        rw [second_child, parent]
        omega
      have hcpos : 0 < second_child s - 1 := by
        rw [second_child]
        omega
      have := hInv.ord (second_child s - 1) hcl hcpos
      rw [hpc, heq] at this
      exact this hlt
    rw [bubble_down_eq_none h s (i, p) n hc hstop]
    exact move_self_eq h i p hpre hslen hsitem heq

end BinHeap

/-! ### Specification of `replace` -/

theorem map_set_of_snd_eq {α β : Type} (f : α → β) :
    ∀ (l : List α) (s : Nat) (a d : α), f (l.getD s d) = f a →
    (l.set s a).map f = l.map f := by
  intro l
  induction l with
  | nil =>
    intro s a d _
    rfl
  | cons x t ih =>
    intro s a d hf
    cases s with
    | zero =>
      show f a :: t.map f = f x :: t.map f
      rw [← hf]
      rfl
    | succ s =>
      show f x :: (t.set s a).map f = f x :: t.map f
      rw [ih s a d hf]

namespace BinHeap

theorem replace_spec (h : BinHeap P) (i j : Nat) (hInv : Inv h)
    (hi : 0 ≤ h.iim i) (hj : h.iim j < 0) :
    Inv (replace h i j) ∧
    (replace h i j).iim j = h.iim i ∧
    (replace h i j).iim i = h.iim j ∧
    prioOf (replace h i j) j = prioOf h i ∧
    (replace h i j).data.map Prod.snd = h.data.map Prod.snd ∧
    (replace h i j).data.length = h.data.length := by
  obtain ⟨hslen, hsitem⟩ := hInv.mem i hi
  set s := (h.iim i).toNat with hs
  have hij : i ≠ j := by
    intro he
    rw [he] at hi
    omega
  have hrepl : replace h i j =
      { data := h.data.set s (j, (nth h s).2),
        iim := fun x => if x = j then h.iim i
          else if x = i then h.iim j else h.iim x } := rfl
  have hiimj : (replace h i j).iim j = h.iim i := by
    rw [hrepl]
    show (if j = j then h.iim i else _) = h.iim i
    rw [if_pos rfl]
  have hiimi : (replace h i j).iim i = h.iim j := by
    rw [hrepl]
    show (if i = j then h.iim i else if i = i then h.iim j else h.iim i) = h.iim j
    rw [if_neg hij, if_pos rfl]
  have hiimo : ∀ x, x ≠ i → x ≠ j → (replace h i j).iim x = h.iim x := by
    intro x hxi hxj
    rw [hrepl]
    show (if x = j then h.iim i else if x = i then h.iim j else h.iim x) = h.iim x
    rw [if_neg hxj, if_neg hxi]
  have hlenr : (replace h i j).data.length = h.data.length := by
    rw [hrepl]
    exact List.length_set _ _ _
  have hnths : nth (replace h i j) s = (j, (nth h s).2) := by
    rw [hrepl]
    exact getD_set_self h.data s _ default hslen
  have hntho : ∀ t, t ≠ s → nth (replace h i j) t = nth h t := by
    intro t ht
    rw [hrepl]
    exact getD_set_ne h.data s t _ default (fun a => ht a.symm)
  have hsnd : ∀ t, (nth (replace h i j) t).2 = (nth h t).2 := by
    intro t
    by_cases hts : t = s
    · rw [hts, hnths]
    · rw [hntho t hts]
  have hcast : h.iim i = (s : Int) := by
    rw [hs, Int.toNat_of_nonneg hi]
  refine ⟨⟨?_, ?_, ?_⟩, hiimj, hiimi, ?_, ?_, hlenr⟩
  · -- coherence
    intro t ht
    rw [hlenr] at ht
    by_cases hts : t = s
    · rw [hts, hnths]
      show (replace h i j).iim j = (s : Int)
      rw [hiimj, hcast]
    · rw [hntho t hts]
      have hxj : (nth h t).1 ≠ j := by
        intro he
        have := hInv.coh t ht
        rw [he] at this
        omega
      have hxi : (nth h t).1 ≠ i := by
        rw [← hsitem]
        exact hInv.distinct ht hslen hts
      rw [hiimo _ hxi hxj]
      exact hInv.coh t ht
  · -- membership
    intro x hx
    by_cases hxj : x = j
    · rw [hxj, hiimj, hcast, Int.toNat_natCast]
      refine ⟨by rw [hlenr]; exact hslen, ?_⟩
      rw [hnths]
    · by_cases hxi : x = i
      · rw [hxi, hiimi] at hx
        omega
      · rw [hiimo x hxi hxj] at hx ⊢
        obtain ⟨hu, he⟩ := hInv.mem x hx
        have hus : (h.iim x).toNat ≠ s := by
          intro hc
          rw [hc, hsitem] at he
          exact hxi he.symm
        exact ⟨by rw [hlenr]; exact hu, by rw [hntho _ hus]; exact he⟩
  · -- order
    intro t ht htpos
    rw [hlenr] at ht
    rw [hsnd t, hsnd (parent t)]
    exact hInv.ord t ht htpos
  · -- the priority moves to the new item
    rw [prioOf, prioOf, hiimj, hcast, Int.toNat_natCast, hnths]
  · -- the priorities array is unchanged
    rw [hrepl]
    exact map_set_of_snd_eq Prod.snd h.data s (j, (nth h s).2) default rfl

/-! ### Specification of the state setter -/

theorem stateSet_in_heap_eq (h : BinHeap P) (i : Nat) :
    stateSet h i IN_HEAP = h := by
  show (if IN_HEAP = POST_HEAP ∨ IN_HEAP = PRE_HEAP then _ else h) = h
  rw [if_neg (by decide)]

theorem state_in_heap_nonneg (h : BinHeap P) (i : Nat)
    (hin : state h i = IN_HEAP) : 0 ≤ h.iim i := by
  by_cases hx : 0 ≤ h.iim i
  · exact hx
  · exfalso
    rw [state, if_neg hx, IN_HEAP] at hin
    omega

theorem stateSet_spec (h : BinHeap P) (i : Nat) (st : Int) (hInv : Inv h)
    (hin : state h i = IN_HEAP) (hst : st = PRE_HEAP ∨ st = POST_HEAP) :
    state (stateSet h i st) i = st ∧
    heapOrd (stateSet h i st) ∧
    (stateSet h i st).data.length = h.data.length - 1 := by
  have hcond : st = POST_HEAP ∨ st = PRE_HEAP := hst.symm
  have hss : stateSet h i st =
      { erase h i with iim := fun x => if x = i then st else (erase h i).iim x } := by
    show (if st = POST_HEAP ∨ st = PRE_HEAP then _ else h) = _
    rw [if_pos hcond, if_pos hin]
  have hpre : 0 ≤ h.iim i := state_in_heap_nonneg h i hin
  obtain ⟨hEInv, hElen, _⟩ := erase_spec h i hInv hpre
  have hstneg : ¬ 0 ≤ st := by
    rcases hst with hc | hc <;> rw [hc] <;> decide
  refine ⟨?_, ?_, ?_⟩
  · rw [state, hss]
    show (if 0 ≤ (if i = i then st else _) then (0 : Int)
      else (if i = i then st else _)) = st
    rw [if_pos rfl, if_neg hstneg]
  · intro t ht htpos
    rw [hss] at ht ⊢
    exact hEInv.ord t ht htpos
  · rw [hss]
    exact hElen

end BinHeap

/-! ### Sequences of public operations

The operations named by the specification, each with its stated precondition,
applied starting from the empty heap whose cross reference map is constantly
`PRE_HEAP`. -/

/-- The empty heap with every item's index entry set to `PRE_HEAP`. -/
def empty0 : BinHeap P := { data := [], iim := fun _ => PRE_HEAP }

/-- One public mutating operation of the heap interface. -/
inductive Op (P : Type) where
  | push (i : Nat) (p : P)
  | pop
  | erase (i : Nat)
  | set (i : Nat) (p : P)
  | decrease (i : Nat) (p : P)
  | increase (i : Nat) (p : P)
  | replace (i j : Nat)

namespace BinHeap

/-- Apply one operation. -/
def apply (h : BinHeap P) : Op P → BinHeap P
  | .push i p => h.push (i, p)
  | .pop => h.pop
  | .erase i => h.erase i
  | .set i p => h.set i p
  | .decrease i p => h.decrease i p
  | .increase i p => h.increase i p
  | .replace i j => h.replace i j

/-- The stated precondition of each operation: push requires a `PRE_HEAP`
item, pop a nonempty heap, erase/decrease/increase an in-heap item (with the
respective priority direction), replace an in-heap first item and an
out-of-heap second item; set carries no precondition. -/
def precond (h : BinHeap P) : Op P → Prop
  | .push i _ => h.iim i = PRE_HEAP
  | .pop => h.data ≠ []
  | .erase i => 0 ≤ h.iim i
  | .set _ _ => True
  | .decrease i p => 0 ≤ h.iim i ∧ ¬ (nth h (h.iim i).toNat).2 < p
  | .increase i p => 0 ≤ h.iim i ∧ ¬ p < (nth h (h.iim i).toNat).2
  | .replace i j => 0 ≤ h.iim i ∧ h.iim j < 0

/-- Heaps reachable from the freshly initialised empty heap by operations
satisfying their preconditions. -/
inductive Reachable : BinHeap P → Prop where
  | init : Reachable empty0
  | step {h : BinHeap P} (op : Op P) : Reachable h → precond h op →
      Reachable (apply h op)

theorem empty0_inv : Inv (empty0 : BinHeap P) := by
  refine ⟨?_, ?_, ?_⟩
  · intro t ht
    simp [empty0] at ht
  · intro x hx
    exfalso
    have : (empty0 : BinHeap P).iim x = PRE_HEAP := rfl
    rw [this, PRE_HEAP] at hx
    omega
  · intro t ht
    simp [empty0] at ht

theorem apply_inv {h : BinHeap P} {op : Op P} (hInv : Inv h)
    (hpre : precond h op) : Inv (apply h op) := by
  cases op with
  | push i p =>
    have hpre' : h.iim i < 0 := by
      have : h.iim i = PRE_HEAP := hpre
      rw [this, PRE_HEAP]
      omega
    exact (push_spec h i p hInv hpre').1
  | pop =>
    exact (pop_spec h hInv hpre).1
  | erase i =>
    exact (erase_spec h i hInv hpre).1
  | set i p =>
    show Inv (set h i p)
    by_cases hneg : h.iim i < 0
    · rw [set_eq_push h i p hneg]
      exact (push_spec h i p hInv hneg).1
    · have hpos : 0 ≤ h.iim i := by omega
      by_cases hlt : p < (nth h (h.iim i).toNat).2
      · rw [set_eq_decrease h i p hpos hlt]
        exact (decrease_spec h i p hInv hpos (lt_asymm hlt)).1
      · rw [set_eq_increase h i p hpos hlt]
        exact (increase_spec h i p hInv hpos hlt).1
  | decrease i p =>
    exact (decrease_spec h i p hInv hpre.1 hpre.2).1
  | increase i p =>
    exact (increase_spec h i p hInv hpre.1 hpre.2).1
  | replace i j =>
    exact (replace_spec h i j hInv hpre.1 hpre.2).1

theorem reachable_inv {h : BinHeap P} (hr : Reachable h) : Inv h := by
  induction hr with
  | init => exact empty0_inv
  | step op _ hpre ih => exact apply_inv ih hpre

/-! ### Sorted extraction -/

theorem root_min (h : BinHeap P) (hInv : Inv h) :
    ∀ t, t < h.data.length → prio h ≤ (nth h t).2 := by
  intro t
  induction t using Nat.strong_induction_on with
  | _ t ih =>
    intro ht
    rcases Nat.eq_zero_or_pos t with h0 | h0
    · rw [h0]
      exact le_refl _
    · have hpt : parent t < t := parent_lt h0
      exact le_trans (ih (parent t) hpt (lt_trans hpt ht))
        (not_lt.mp (hInv.ord t ht h0))

/-- The list of priorities returned by `prio()` across `k` successive
`pop()` calls. -/
def popAll : Nat → BinHeap P → List P
  | 0, _ => []
  | k + 1, h => prio h :: popAll k (pop h)

/-- The heap after `k` successive `pop()` calls. -/
def popN : Nat → BinHeap P → BinHeap P
  | 0, h => h
  | k + 1, h => popN k (pop h)

/-- Pushing a list of pairs in order. -/
def pushAll (h : BinHeap P) (ps : List (Nat × P)) : BinHeap P :=
  ps.foldl push h

theorem popAll_mem :
    ∀ (k : Nat) (h : BinHeap P), Inv h → k ≤ h.data.length →
    ∀ q ∈ popAll k h, ∃ pr, pr ∈ h.data ∧ pr.2 = q := by
  intro k
  induction k with
  | zero =>
    intro h _ _ q hq
    exact absurd hq (List.not_mem_nil q)
  | succ k ih =>
    intro h hInv hk q hq
    have hne : h.data ≠ [] := by
      intro hc
      rw [hc] at hk
      simp at hk
    obtain ⟨hIp, hlenp, hperm, _⟩ := pop_spec h hInv hne
    have hq' : q ∈ prio h :: popAll k (pop h) := hq
    rcases List.mem_cons.mp hq' with hq0 | hq1
    · exact ⟨nth h 0, nth_mem h 0 (by omega), hq0.symm⟩
    · obtain ⟨pr, hpr, he⟩ := ih (pop h) hIp (by omega) q hq1
      exact ⟨pr, hperm.mem_iff.mp (List.mem_cons_of_mem _ hpr), he⟩

theorem popAll_sorted :
    ∀ (k : Nat) (h : BinHeap P), Inv h → k ≤ h.data.length →
    List.Sorted (· ≤ ·) (popAll k h) := by
  intro k
  induction k with
  | zero =>
    intro h _ _
    exact List.sorted_nil
  | succ k ih =>
    intro h hInv hk
    have hne : h.data ≠ [] := by
      intro hc
      rw [hc] at hk
      simp at hk
    obtain ⟨hIp, hlenp, hperm, _⟩ := pop_spec h hInv hne
    show List.Sorted (· ≤ ·) (prio h :: popAll k (pop h))
    rw [List.sorted_cons]
    constructor
    · intro b hb
      obtain ⟨pr, hpr, he⟩ := popAll_mem k (pop h) hIp (by omega) b hb
      have hprh : pr ∈ h.data := hperm.mem_iff.mp (List.mem_cons_of_mem _ hpr)
      obtain ⟨t, ht, hte⟩ := mem_nth h pr hprh
      rw [← he, ← hte]
      exact root_min h hInv t ht
    · exact ih (pop h) hIp (by omega)

theorem popAll_perm :
    ∀ (k : Nat) (h : BinHeap P), Inv h → h.data.length = k →
    List.Perm (popAll k h) (h.data.map Prod.snd) := by
  intro k
  induction k with
  | zero =>
    intro h _ hk
    rw [List.length_eq_zero.mp hk]
    exact List.Perm.refl _
  | succ k ih =>
    intro h hInv hk
    have hne : h.data ≠ [] := by
      intro hc
      rw [hc] at hk
      simp at hk
    obtain ⟨hIp, hlenp, hperm, _⟩ := pop_spec h hInv hne
    show List.Perm (prio h :: popAll k (pop h)) (h.data.map Prod.snd)
    have h1 : List.Perm (popAll k (pop h)) ((pop h).data.map Prod.snd) :=
      ih (pop h) hIp (by omega)
    have h2 : List.Perm ((nth h 0 :: (pop h).data).map Prod.snd)
        (h.data.map Prod.snd) := hperm.map Prod.snd
    have h3 : (nth h 0 :: (pop h).data).map Prod.snd
        = prio h :: (pop h).data.map Prod.snd := rfl
    rw [h3] at h2
    exact ((h1.cons (prio h)).trans h2)

theorem popN_data :
    ∀ (k : Nat) (h : BinHeap P), Inv h → h.data.length = k →
    (popN k h).data = [] := by
  intro k
  induction k with
  | zero =>
    intro h _ hk
    exact List.length_eq_zero.mp hk
  | succ k ih =>
    intro h hInv hk
    have hne : h.data ≠ [] := by
      intro hc
      rw [hc] at hk
      simp at hk
    obtain ⟨hIp, hlenp, _, _⟩ := pop_spec h hInv hne
    show (popN k (pop h)).data = []
    exact ih (pop h) hIp (by omega)

theorem pushAll_spec :
    ∀ (ps : List (Nat × P)) (h : BinHeap P), Inv h →
    (∀ x, x ∈ ps.map Prod.fst → h.iim x = PRE_HEAP) →
    (ps.map Prod.fst).Nodup →
    Inv (pushAll h ps) ∧
    (pushAll h ps).data.length = h.data.length + ps.length ∧
    List.Perm (pushAll h ps).data (h.data ++ ps) := by
  intro ps
  induction ps with
  | nil =>
    intro h hInv _ _
    refine ⟨hInv, by simp [pushAll], ?_⟩
    rw [List.append_nil]
    exact List.Perm.refl _
  | cons pr ps ih =>
    obtain ⟨i, p⟩ := pr
    intro h hInv hpremap hnodup
    have hpre : h.iim i = PRE_HEAP := by
      apply hpremap
      show i ∈ ((i, p) :: ps).map Prod.fst
      rw [List.map_cons]
      exact List.mem_cons_self i _
    have hneg : h.iim i < 0 := by
      rw [hpre, PRE_HEAP]
      omega
    obtain ⟨hPInv, hPlen, hPperm, hPpos, hPframe⟩ := push_spec h i p hInv hneg
    have hnodup' : (ps.map Prod.fst).Nodup := by
      rw [List.map_cons] at hnodup
      exact (List.nodup_cons.mp hnodup).2
    have hheadnot : i ∉ ps.map Prod.fst := by
      rw [List.map_cons] at hnodup
      exact (List.nodup_cons.mp hnodup).1
    have hpremap' : ∀ x, x ∈ ps.map Prod.fst → (push h (i, p)).iim x = PRE_HEAP := by
      intro x hx
      have hxi : x ≠ i := by
        intro he
        rw [he] at hx
        exact hheadnot hx
      have hxnot : ∀ s, s < h.data.length → (nth h s).1 ≠ x := by
        intro t ht he
        have := hInv.coh t ht
        rw [he] at this
        have hxpre := hpremap x (by
          show x ∈ ((i, p) :: ps).map Prod.fst
          rw [List.map_cons]
          exact List.mem_cons_of_mem _ hx)
        rw [hxpre, PRE_HEAP] at this
        omega
      rw [hPframe x hxi hxnot]
      exact hpremap x (by
        show x ∈ ((i, p) :: ps).map Prod.fst
        rw [List.map_cons]
        exact List.mem_cons_of_mem _ hx)
    have hstep : pushAll h ((i, p) :: ps) = pushAll (push h (i, p)) ps := rfl
    obtain ⟨ih1, ih2, ih3⟩ := ih (push h (i, p)) hPInv hpremap' hnodup'
    refine ⟨by rw [hstep]; exact ih1, ?_, ?_⟩
    · rw [hstep, ih2, hPlen]
      simp
      omega
    · rw [hstep]
      refine ih3.trans ?_
      have h4 : List.Perm ((push h (i, p)).data ++ ps) ((h.data ++ [(i, p)]) ++ ps) :=
        hPperm.append_right ps
      refine h4.trans ?_
      rw [List.append_assoc, List.singleton_append]

/-! ### Example heaps used to instantiate the theorems -/

/-- A seven-entry heap whose items coincide with their slots; erasing item 3
exercises the bubble-up branch of `erase` (the relocated last entry, priority
3, compares less than the freed slot's parent, priority 10). -/
def exHeapA : BinHeap Int :=
  { data := [(0, 0), (1, 10), (2, 1), (3, 11), (4, 12), (5, 2), (6, 3)],
    iim := fun x => if x < 7 then (x : Int) else -1 }

theorem exHeapA_inv : Inv exHeapA := by
  refine ⟨by decide, ?_, by unfold heapOrd; decide⟩
  intro x hx
  rcases Nat.lt_or_ge x 7 with h7 | h7
  · have hiim : exHeapA.iim x = (x : Int) := if_pos h7
    rw [hiim, Int.toNat_natCast]
    refine ⟨h7, ?_⟩
    interval_cases x <;> rfl
  · have hiim : exHeapA.iim x = -1 := if_neg (by omega)
    rw [hiim] at hx
    omega

/-- A one-entry heap holding item 0 with priority 5. -/
def exHeapB : BinHeap Int :=
  { data := [(0, 5)], iim := fun x => if x = 0 then 0 else -1 }

theorem exHeapB_inv : Inv exHeapB := by
  refine ⟨by decide, ?_, by unfold heapOrd; decide⟩
  intro x hx
  by_cases h0 : x = 0
  · have hiim : exHeapB.iim x = 0 := if_pos h0
    rw [hiim]
    exact ⟨by decide, by rw [h0]; rfl⟩
  · have hiim : exHeapB.iim x = -1 := if_neg h0
    rw [hiim] at hx
    omega

/-! ### The claims -/

/-- C1.  Heap-order invariant: starting from the empty heap with every item's
index entry set to `PRE_HEAP`, after any sequence of
push/pop/erase/set/decrease/increase/replace calls each satisfying its stated
precondition, for every non-root occupied slot `i` the entry at `parent i`
does not compare greater than the entry at `i` under the comparison
relation. -/
theorem claim_C1 {h : BinHeap P} (hr : Reachable h) : heapOrd h :=
  (reachable_inv hr).ord

theorem claim_C1_witness :
    heapOrd (apply (empty0 : BinHeap Int) (Op.push 0 3)) :=
  claim_C1 (Reachable.step (Op.push 0 3) Reachable.init rfl)

/-- C2.  Index-coherence invariant: on every reachable heap the position index
maps the item stored at slot `i` exactly to `i`, and consequently the O(1)
lookup `operator[]` returns the same priority as reading the item's slot in
the backing array. -/
theorem claim_C2 {h : BinHeap P} (hr : Reachable h) :
    (∀ i, i < h.data.length → h.iim (nth h i).1 = (i : Int)) ∧
    (∀ i, i < h.data.length → prioOf h (nth h i).1 = (nth h i).2) := by
  have hInv := reachable_inv hr
  refine ⟨hInv.coh, ?_⟩
  intro i hi
  rw [prioOf, hInv.coh i hi, Int.toNat_natCast]

theorem claim_C2_witness :
    (∀ i, i < (apply (empty0 : BinHeap Int) (Op.push 1 7)).data.length →
      (apply (empty0 : BinHeap Int) (Op.push 1 7)).iim
        (nth (apply (empty0 : BinHeap Int) (Op.push 1 7)) i).1 = (i : Int)) ∧
    (∀ i, i < (apply (empty0 : BinHeap Int) (Op.push 1 7)).data.length →
      prioOf (apply (empty0 : BinHeap Int) (Op.push 1 7))
        (nth (apply (empty0 : BinHeap Int) (Op.push 1 7)) i).1
        = (nth (apply (empty0 : BinHeap Int) (Op.push 1 7)) i).2) :=
  claim_C2 (Reachable.step (Op.push 1 7) Reachable.init rfl)

/-- C9.  clear() empties the entry storage (afterwards `size` is zero and
`empty` is true) while leaving the position-index value of every item exactly
as it was before the call. -/
theorem claim_C9 (h : BinHeap P) :
    size (clear h) = 0 ∧ empty (clear h) = true ∧ (clear h).iim = h.iim :=
  ⟨rfl, rfl, rfl⟩

/-- A four-entry heap whose root's two children carry equal priorities. -/
def exHeapC : BinHeap Int :=
  { data := [(0, 0), (1, 5), (2, 5), (3, 9)],
    iim := fun t => if t < 4 then (t : Int) else -1 }

/-- C3 (counterexample).  On a heap whose root has two children of equal
priority, pop() moves the RIGHT child's item (2) to the root, not the left
child's item (1): the claim that ties prefer the left child is false. -/
theorem claim_C3_counterexample :
    (nth exHeapC 1).2 = (nth exHeapC 2).2 ∧
    top (pop exHeapC) = 2 ∧ top (pop exHeapC) ≠ 1 := by
  refine ⟨rfl, ?_, ?_⟩ <;>
    simp +decide [exHeapC, pop, bubble_down.eq_def, move, nth, parent,
      second_child, top, POST_HEAP]

/-- C3 (amended).  During pop()'s bubble-down against a full pair of
children, the left child is chosen only when it strictly precedes the right
child under the comparison relation; when neither child strictly precedes the
other the RIGHT child is chosen.  Stated observationally on a four-entry
heap: when the left child does not strictly precede the right and the right
child precedes the relocated last entry, the right child's pair moves to the
root; when the left child strictly precedes both, the left child's pair moves
to the root. -/
theorem claim_C3 (w x y z : Nat) (a b c d : P) (f : Nat → Int) :
    (¬ b < c → c < d →
      top (pop ⟨[(w, a), (x, b), (y, c), (z, d)], f⟩) = y ∧
      prio (pop ⟨[(w, a), (x, b), (y, c), (z, d)], f⟩) = c) ∧
    (b < c → b < d →
      top (pop ⟨[(w, a), (x, b), (y, c), (z, d)], f⟩) = x ∧
      prio (pop ⟨[(w, a), (x, b), (y, c), (z, d)], f⟩) = b) := by
  set h : BinHeap P := ⟨[(w, a), (x, b), (y, c), (z, d)], f⟩ with hh
  set h1 : BinHeap P :=
    { h with iim := fun t => if t = (nth h 0).1 then POST_HEAP else h.iim t } with hh1
  have hpop : pop h = { (bubble_down h1 0 (nth h1 3) 3).1 with
      data := (bubble_down h1 0 (nth h1 3) 3).1.data.dropLast } := rfl
  have h13 : nth h1 3 = (z, d) := rfl
  have hsc : second_child 0 < 3 := by decide
  constructor
  · intro hbc hcd
    have hcc : chosenChild h1 0 = 2 := by
      show (if b < c then 1 else 2) = 2
      rw [if_neg hbc]
    have hstep := bubble_down_eq_step h1 0 (z, d) 3 hsc
      (by rw [hcc]; show c < d; exact hcd)
    rw [hcc] at hstep
    have h12 : nth h1 2 = (y, c) := rfl
    rw [h12] at hstep
    have hdone := bubble_down_eq_none (move h1 (y, c) 0) 2 (z, d) 3 (by decide)
      (fun hcon => absurd hcon.1 (by decide))
    have hfinal : bubble_down h1 0 (nth h1 3) 3 = (move (move h1 (y, c) 0) (z, d) 2, 2) := by
      rw [h13, hstep, hdone]
    constructor
    · rw [hpop, hfinal]
      rfl
    · rw [hpop, hfinal]
      rfl
  · intro hbc hbd
    have hcc : chosenChild h1 0 = 1 := by
      show (if b < c then 1 else 2) = 1
      rw [if_pos hbc]
    have hstep := bubble_down_eq_step h1 0 (z, d) 3 hsc
      (by rw [hcc]; show b < d; exact hbd)
    rw [hcc] at hstep
    have h11 : nth h1 1 = (x, b) := rfl
    rw [h11] at hstep
    have hdone := bubble_down_eq_none (move h1 (x, b) 0) 1 (z, d) 3 (by decide)
      (fun hcon => absurd hcon.1 (by decide))
    have hfinal : bubble_down h1 0 (nth h1 3) 3 = (move (move h1 (x, b) 0) (z, d) 1, 1) := by
      rw [h13, hstep, hdone]
    constructor
    · rw [hpop, hfinal]
      rfl
    · rw [hpop, hfinal]
      rfl

theorem claim_C3_witness :
    top (pop (⟨[(0, (0 : Int)), (1, 5), (2, 5), (3, 9)],
      fun t => if t < 4 then (t : Int) else -1⟩ : BinHeap Int)) = 2 ∧
    prio (pop (⟨[(0, (0 : Int)), (1, 5), (2, 5), (3, 9)],
      fun t => if t < 4 then (t : Int) else -1⟩ : BinHeap Int)) = 5 :=
  (claim_C3 0 1 2 3 (0 : Int) 5 5 9 _).1 (by decide) (by decide)

/-- C4.  erase(item) on an in-heap item marks the item's index `POST_HEAP`,
shrinks the storage by one and restores the heap-order invariant — in
particular also in the case where the relocated last entry compares less
than its new slot's parent, which is handled by the bubble-up attempt that
precedes the bubble-down fallback. -/
theorem claim_C4 (h : BinHeap P) (i : Nat) (hInv : Inv h) (hpre : 0 ≤ h.iim i) :
    heapOrd (erase h i) ∧ state (erase h i) i = POST_HEAP ∧
    (erase h i).data.length = h.data.length - 1 := by
  obtain ⟨hEInv, hElen, hEiim⟩ := erase_spec h i hInv hpre
  refine ⟨hEInv.ord, ?_, hElen⟩
  rw [state, hEiim, POST_HEAP, if_neg (by omega)]

theorem claim_C4_witness :
    heapOrd (erase exHeapA 3) ∧ state (erase exHeapA 3) 3 = POST_HEAP ∧
    (erase exHeapA 3).data.length = exHeapA.data.length - 1 :=
  claim_C4 exHeapA 3 exHeapA_inv (by decide)

/-- C5.  Sorted extraction: pushing any list of (item, priority) pairs with
pairwise distinct items into the freshly initialised empty heap and then
reading `prio()` before each of the n `pop()` calls yields exactly the pushed
priorities, in non-decreasing order under the comparison relation, and
afterwards `empty()` returns true. -/
theorem claim_C5 (ps : List (Nat × P)) (hnd : (ps.map Prod.fst).Nodup) :
    List.Sorted (· ≤ ·) (popAll ps.length (pushAll empty0 ps)) ∧
    List.Perm (popAll ps.length (pushAll empty0 ps)) (ps.map Prod.snd) ∧
    empty (popN ps.length (pushAll empty0 ps)) = true := by
  obtain ⟨hInv, hlen, hperm⟩ :=
    pushAll_spec ps empty0 empty0_inv (fun x _ => rfl) hnd
  have hlen' : (pushAll empty0 ps).data.length = ps.length := by
    rw [hlen]
    show 0 + ps.length = ps.length
    omega
  refine ⟨popAll_sorted ps.length _ hInv (le_of_eq hlen'.symm), ?_, ?_⟩
  · refine (popAll_perm ps.length _ hInv hlen').trans ?_
    have h1 : List.Perm ((pushAll empty0 ps).data.map Prod.snd)
        (((empty0 : BinHeap P).data ++ ps).map Prod.snd) := hperm.map Prod.snd
    have h2 : ((empty0 : BinHeap P).data ++ ps).map Prod.snd = ps.map Prod.snd := rfl
    rw [h2] at h1
    exact h1
  · rw [empty, popN_data ps.length _ hInv hlen']
    rfl

theorem claim_C5_witness :
    List.Sorted (· ≤ ·)
      (popAll 3 (pushAll (empty0 : BinHeap Int) [(0, 3), (1, 1), (2, 2)])) ∧
    List.Perm (popAll 3 (pushAll (empty0 : BinHeap Int) [(0, 3), (1, 1), (2, 2)]))
      ([(0, (3 : Int)), (1, 1), (2, 2)].map Prod.snd) ∧
    empty (popN 3 (pushAll (empty0 : BinHeap Int) [(0, 3), (1, 1), (2, 2)])) = true :=
  claim_C5 [(0, 3), (1, 1), (2, 2)] (by decide)

/-- C6.  set(item, priority) is an upsert: when the item's index value is
negative it is exactly push(item, priority); when the item is in the heap it
takes the bubble-up path exactly when the new priority compares less than
the stored one, and under the stated direction preconditions it produces the
very same state as decrease() respectively increase() — hence a heap driven
by decrease/increase and an identical heap driven by set() agree in every
subsequent observation, including the final pop-order. -/
theorem claim_C6 (h : BinHeap P) (i : Nat) (p : P) (hInv : Inv h) :
    (h.iim i < 0 → set h i p = push h (i, p)) ∧
    (0 ≤ h.iim i → ¬ (nth h (h.iim i).toNat).2 < p → set h i p = decrease h i p) ∧
    (0 ≤ h.iim i → ¬ p < (nth h (h.iim i).toNat).2 → set h i p = increase h i p) := by
  refine ⟨fun hneg => set_eq_push h i p hneg, ?_, ?_⟩
  · intro hpos hdec
    by_cases hlt : p < (nth h (h.iim i).toNat).2
    · exact set_eq_decrease h i p hpos hlt
    · have heq : (nth h (h.iim i).toNat).2 = p :=
        le_antisymm (not_lt.mp hlt) (not_lt.mp hdec)
      rw [set_eq_increase h i p hpos hlt, increase_eq_self h i p hInv hpos heq,
        decrease_eq_self h i p hInv hpos heq]
  · intro hpos hinc
    exact set_eq_increase h i p hpos hinc

theorem claim_C6_witness :
    set exHeapB 0 (2 : Int) = decrease exHeapB 0 2 :=
  (claim_C6 exHeapB 0 2 exHeapB_inv).2.1 (by decide) (by decide)

/-- C7.  replace(oldItem, newItem) with oldItem in the heap and newItem out
of it swaps the two cross reference values and overwrites the entry's item
field: afterwards newItem is in the heap at the very slot oldItem occupied
with the same priority, oldItem's state() no longer reads IN_HEAP, and the
array of priorities is unchanged. -/
theorem claim_C7 (h : BinHeap P) (i j : Nat) (hInv : Inv h)
    (hi : 0 ≤ h.iim i) (hj : h.iim j < 0) :
    (replace h i j).iim j = h.iim i ∧
    prioOf (replace h i j) j = prioOf h i ∧
    state (replace h i j) j = IN_HEAP ∧
    state (replace h i j) i ≠ IN_HEAP ∧
    (replace h i j).data.map Prod.snd = h.data.map Prod.snd := by
  obtain ⟨hRInv, hiimj, hiimi, hprio, hmap, _⟩ := replace_spec h i j hInv hi hj
  refine ⟨hiimj, hprio, ?_, ?_, hmap⟩
  · rw [state, hiimj, if_pos hi, IN_HEAP]
  · rw [state, hiimi, if_neg (by omega), IN_HEAP]
    omega

theorem claim_C7_witness :
    (replace exHeapB 0 1).iim 1 = exHeapB.iim 0 ∧
    prioOf (replace exHeapB 0 1) 1 = prioOf exHeapB 0 ∧
    state (replace exHeapB 0 1) 1 = IN_HEAP ∧
    state (replace exHeapB 0 1) 0 ≠ IN_HEAP ∧
    (replace exHeapB 0 1).data.map Prod.snd = exHeapB.data.map Prod.snd :=
  claim_C7 exHeapB 0 1 exHeapB_inv (by decide) (by decide)

/-- C8.  State transitions: an index entry `PRE_HEAP` reads state PRE_HEAP;
after push the pushed item reads IN_HEAP; after pop or erase the removed item
reads POST_HEAP; the state setter called with PRE_HEAP or POST_HEAP on an
in-heap item erases it first (preserving heap order) and then reports the
requested sentinel; calling it with IN_HEAP is a no-op. -/
theorem claim_C8 (h : BinHeap P) (i : Nat) (p : P) (st : Int) (hInv : Inv h) :
    (h.iim i = PRE_HEAP → state h i = PRE_HEAP) ∧
    (h.iim i = PRE_HEAP → state (push h (i, p)) i = IN_HEAP) ∧
    (h.data ≠ [] → state (pop h) (top h) = POST_HEAP) ∧
    (0 ≤ h.iim i → state (erase h i) i = POST_HEAP) ∧
    (state h i = IN_HEAP → (st = PRE_HEAP ∨ st = POST_HEAP) →
      state (stateSet h i st) i = st ∧ heapOrd (stateSet h i st)) ∧
    stateSet h i IN_HEAP = h := by
  refine ⟨?_, ?_, ?_, ?_, ?_, stateSet_in_heap_eq h i⟩
  · intro hpre
    rw [state, hpre, PRE_HEAP, if_neg (by omega)]
  · intro hpre
    have hneg : h.iim i < 0 := by
      rw [hpre, PRE_HEAP]
      omega
    obtain ⟨_, _, _, hpos, _⟩ := push_spec h i p hInv hneg
    rw [state, if_pos hpos, IN_HEAP]
  · intro hne
    obtain ⟨_, _, _, hiim⟩ := pop_spec h hInv hne
    rw [state, hiim, POST_HEAP, if_neg (by omega)]
  · intro hpre
    obtain ⟨_, _, hiim⟩ := erase_spec h i hInv hpre
    rw [state, hiim, POST_HEAP, if_neg (by omega)]
  · intro hin hst
    obtain ⟨h1, h2, _⟩ := stateSet_spec h i st hInv hin hst
    exact ⟨h1, h2⟩

theorem claim_C8_witness :
    state (push (empty0 : BinHeap Int) (0, 5)) 0 = IN_HEAP :=
  (claim_C8 (empty0 : BinHeap Int) 0 5 0 empty0_inv).2.1 rfl

/-- C10.  Priority-frame property: on an invariant-satisfying heap, each of
decrease/increase/set on an in-heap item (under its precondition) keeps the
set of in-heap items unchanged, sets the item's stored priority to the new
value, and leaves every other in-heap item's priority untouched. -/
theorem claim_C10 (h : BinHeap P) (i : Nat) (p : P) (hInv : Inv h)
    (hpre : 0 ≤ h.iim i) :
    (¬ (nth h (h.iim i).toNat).2 < p →
      (∀ x, 0 ≤ (decrease h i p).iim x ↔ 0 ≤ h.iim x) ∧
      prioOf (decrease h i p) i = p ∧
      (∀ x, x ≠ i → 0 ≤ h.iim x → prioOf (decrease h i p) x = prioOf h x)) ∧
    (¬ p < (nth h (h.iim i).toNat).2 →
      (∀ x, 0 ≤ (increase h i p).iim x ↔ 0 ≤ h.iim x) ∧
      prioOf (increase h i p) i = p ∧
      (∀ x, x ≠ i → 0 ≤ h.iim x → prioOf (increase h i p) x = prioOf h x)) ∧
    ((∀ x, 0 ≤ (set h i p).iim x ↔ 0 ≤ h.iim x) ∧
      prioOf (set h i p) i = p ∧
      (∀ x, x ≠ i → 0 ≤ h.iim x → prioOf (set h i p) x = prioOf h x)) := by
  refine ⟨?_, ?_, ?_⟩
  · intro hdir
    obtain ⟨_, _, hmem, hprio, hframe⟩ := decrease_spec h i p hInv hpre hdir
    exact ⟨hmem, hprio, hframe⟩
  · intro hdir
    obtain ⟨_, _, hmem, hprio, hframe⟩ := increase_spec h i p hInv hpre hdir
    exact ⟨hmem, hprio, hframe⟩
  · by_cases hlt : p < (nth h (h.iim i).toNat).2
    · rw [set_eq_decrease h i p hpre hlt]
      obtain ⟨_, _, hmem, hprio, hframe⟩ :=
        decrease_spec h i p hInv hpre (lt_asymm hlt)
      exact ⟨hmem, hprio, hframe⟩
    · rw [set_eq_increase h i p hpre hlt]
      obtain ⟨_, _, hmem, hprio, hframe⟩ :=
        increase_spec h i p hInv hpre hlt
      exact ⟨hmem, hprio, hframe⟩

theorem claim_C10_witness :
    (∀ x, 0 ≤ (decrease exHeapB 0 (2 : Int)).iim x ↔ 0 ≤ exHeapB.iim x) ∧
    prioOf (decrease exHeapB 0 (2 : Int)) 0 = 2 ∧
    (∀ x, x ≠ 0 → 0 ≤ exHeapB.iim x →
      prioOf (decrease exHeapB 0 (2 : Int)) x = prioOf exHeapB x) :=
  (claim_C10 exHeapB 0 2 exHeapB_inv (by decide)).1 (by decide)

end BinHeap

end LemonBinHeap
